import Mathlib

/-!
Verification of the game-logic engines of the OOPS-PROJECT-GAME-ON repository.

The JavaScript sources are embedded shallowly:

* JS numbers used as scores together with the sentinels `-Infinity` and
  `+Infinity` (the alpha-beta windows) become the type `XInt` below, an
  integer type extended with two infinities.
* 2-dimensional game boards stored as arrays of arrays become either
  functions `Nat → Nat → Nat` (Connect 4) or lists (Tic-Tac-Toe, Tetris,
  Sudoku), matching how each piece of code manipulates them.
* Calls to `Math.random()` become explicit stream / parameter inputs, so
  that every JS execution corresponds to one choice of the parameter.
* Unbounded recursion (the Sudoku backtracker) receives explicit fuel.
-/

/-- Integers extended with the two JS infinities, used for minimax scores
and alpha-beta windows (`-Infinity` and `+Infinity` in the source). -/
inductive XInt where
  | negInf : XInt
  | num : Int → XInt
  | posInf : XInt
deriving DecidableEq, Repr

/-- Order-embedding of `XInt` into `WithBot (WithTop Int)`, used to borrow
the linear order. -/
def XInt.toW : XInt → WithBot (WithTop Int)
  | .negInf => ⊥
  | .num n => ((n : WithTop Int) : WithBot (WithTop Int))
  | .posInf => ((⊤ : WithTop Int) : WithBot (WithTop Int))

theorem XInt.toW_injective : Function.Injective XInt.toW := by
  intro a b h
  cases a <;> cases b <;> simp [XInt.toW] at h ⊢ <;> exact_mod_cast h

instance : LinearOrder XInt := LinearOrder.lift' XInt.toW XInt.toW_injective

example : (XInt.negInf < XInt.posInf) := by decide
example : max (XInt.num 3) (XInt.num 7) = XInt.num 7 := by decide
example : (XInt.negInf ≤ XInt.num (-5)) := by decide

namespace XInt

theorem negInf_le (x : XInt) : XInt.negInf ≤ x := by
  show XInt.toW XInt.negInf ≤ XInt.toW x
  exact bot_le

theorem le_posInf (x : XInt) : x ≤ XInt.posInf := by
  show XInt.toW x ≤ XInt.toW XInt.posInf
  exact le_top

theorem le_negInf_iff {x : XInt} : x ≤ XInt.negInf ↔ x = XInt.negInf :=
  ⟨fun h => le_antisymm h (negInf_le x), fun h => h ▸ le_refl _⟩

theorem posInf_le_iff {x : XInt} : XInt.posInf ≤ x ↔ x = XInt.posInf :=
  ⟨fun h => le_antisymm (le_posInf x) h, fun h => h ▸ le_refl _⟩

end XInt

/-- The Knuth-Moore fail-soft relation between the result `g` of an
alpha-beta search over the window `(alpha, beta)` and the true minimax
value `F`: inside the window the values agree, outside it `g` fails on the
same side as `F`. -/
def KMrel (g F alpha beta : XInt) : Prop :=
  (F ≤ alpha → g ≤ alpha) ∧ (alpha < F → F < beta → g = F) ∧ (beta ≤ F → beta ≤ g)

theorem KMrel_self (g alpha beta : XInt) : KMrel g g alpha beta :=
  ⟨id, fun _ _ => rfl, id⟩

/-- At the full window `(-Infinity, +Infinity)` the Knuth-Moore relation
collapses to equality. -/
theorem KMrel.eq_of_full_window {g F : XInt}
    (h : KMrel g F XInt.negInf XInt.posInf) : g = F := by
  obtain ⟨h1, h2, h3⟩ := h
  rcases le_or_lt F XInt.negInf with hF | hF
  · rw [XInt.le_negInf_iff.mp hF] at h1 ⊢
    exact XInt.le_negInf_iff.mp (h1 (le_refl _))
  · rcases lt_or_le F XInt.posInf with hF' | hF'
    · exact h2 hF hF'
    · rw [XInt.posInf_le_iff.mp hF'] at h3 ⊢
      exact (XInt.posInf_le_iff.mp (h3 (le_refl _)))

/-! ## Generic alpha-beta loops

Both minimax implementations (Tic-Tac-Toe and Connect 4) run the same
inner loop: iterate over candidate moves, skip unavailable ones, evaluate
the child with the current window, update the running best and the
window bound, and break out of the loop when `beta <= alpha`.  The loops
are factored out here over an abstract child evaluator so that the
Knuth-Moore argument is proved once; each engine instantiates `childP`
with its own recursive call and `avail` with its own move test. -/

/-- Maximizing alpha-beta loop body (the `isMaximizing` branch):
`childP i a b` evaluates move `i` with window `(a, b)`; `avail i` is the
move-availability test; state is the running `maxEval` and `alpha`,
with the `if (beta <= alpha) break` cut. -/
def absMaxLoop (childP : Nat → XInt → XInt → XInt) (avail : Nat → Bool)
    (beta : XInt) : List Nat → XInt → XInt → XInt
  | [], maxEval, _ => maxEval
  | i :: rest, maxEval, alpha =>
      if avail i then
        if beta ≤ max alpha (childP i alpha beta) then max maxEval (childP i alpha beta)
        else absMaxLoop childP avail beta rest
          (max maxEval (childP i alpha beta)) (max alpha (childP i alpha beta))
      else absMaxLoop childP avail beta rest maxEval alpha

/-- Minimizing alpha-beta loop body, dually. -/
def absMinLoop (childP : Nat → XInt → XInt → XInt) (avail : Nat → Bool)
    (alpha : XInt) : List Nat → XInt → XInt → XInt
  | [], minEval, _ => minEval
  | i :: rest, minEval, beta =>
      if avail i then
        if min beta (childP i alpha beta) ≤ alpha then min minEval (childP i alpha beta)
        else absMinLoop childP avail alpha rest
          (min minEval (childP i alpha beta)) (min beta (childP i alpha beta))
      else absMinLoop childP avail alpha rest minEval beta

/-- The same maximizing loop with the pruning cut removed: `childF i` is
the child value (window arguments dropped, since without the cut they are
dead). -/
def absMaxLoopF (childF : Nat → XInt) (avail : Nat → Bool) :
    List Nat → XInt → XInt
  | [], maxEval => maxEval
  | i :: rest, maxEval =>
      if avail i then absMaxLoopF childF avail rest (max maxEval (childF i))
      else absMaxLoopF childF avail rest maxEval

/-- The minimizing loop with the pruning cut removed. -/
def absMinLoopF (childF : Nat → XInt) (avail : Nat → Bool) :
    List Nat → XInt → XInt
  | [], minEval => minEval
  | i :: rest, minEval =>
      if avail i then absMinLoopF childF avail rest (min minEval (childF i))
      else absMinLoopF childF avail rest minEval

theorem le_absMaxLoopF (childF : Nat → XInt) (avail : Nat → Bool) :
    ∀ (idxs : List Nat) (me : XInt), me ≤ absMaxLoopF childF avail idxs me := by
  intro idxs
  induction idxs with
  | nil => intro me; exact le_refl _
  | cons i rest ih =>
      intro me
      by_cases h : avail i
      · simp only [absMaxLoopF, h, if_true]
        exact le_trans (le_max_left me (childF i)) (ih _)
      · simp only [absMaxLoopF, h, if_false]
        exact ih me

theorem absMinLoopF_le (childF : Nat → XInt) (avail : Nat → Bool) :
    ∀ (idxs : List Nat) (me : XInt), absMinLoopF childF avail idxs me ≤ me := by
  intro idxs
  induction idxs with
  | nil => intro me; exact le_refl _
  | cons i rest ih =>
      intro me
      by_cases h : avail i
      · simp only [absMinLoopF, h, if_true]
        exact le_trans (ih _) (min_le_left me (childF i))
      · simp only [absMinLoopF, h, if_false]
        exact ih me

/-- Knuth-Moore invariant for the maximizing loop: if every child
evaluation satisfies the fail-soft relation, so does the whole loop.
State: `meP`/`a` are the pruned loop's `maxEval`/`alpha`, `meF` is the
unpruned loop's `maxEval`; `a` always equals `max alpha0 meP`. -/
theorem absMaxLoop_KM (childP : Nat → XInt → XInt → XInt) (childF : Nat → XInt)
    (avail : Nat → Bool) (alpha0 beta : XInt)
    (hchild : ∀ i, avail i = true → ∀ a, a < beta →
      KMrel (childP i a beta) (childF i) a beta) :
    ∀ (idxs : List Nat) (meP meF a : XInt), a < beta → a = max alpha0 meP →
      KMrel meP meF alpha0 beta →
      KMrel (absMaxLoop childP avail beta idxs meP a)
            (absMaxLoopF childF avail idxs meF) alpha0 beta := by
  intro idxs
  induction idxs with
  | nil => intro meP meF a _ _ hKM; exact hKM
  | cons i rest ih =>
      intro meP meF a hab ha hKM
      by_cases hs : avail i
      · simp only [absMaxLoop, absMaxLoopF, hs, if_true]
        obtain ⟨hc1, hc2, hc3⟩ := hchild i hs a hab
        set ev := childP i a beta with hev
        set v := childF i with hv
        have halpha0a : alpha0 ≤ a := ha ▸ le_max_left _ _
        have hmePa : meP ≤ a := ha ▸ le_max_right _ _
        by_cases hbr : beta ≤ max a ev
        · rw [if_pos hbr]
          have hbe : beta ≤ ev := by
            rcases le_or_lt ev a with h | h
            · rw [max_eq_left h] at hbr
              exact absurd hbr (not_le.mpr hab)
            · rcases le_max_iff.mp hbr with h' | h'
              · exact absurd h' (not_le.mpr hab)
              · exact h'
          have hbv : beta ≤ v := by
            rcases le_or_lt v a with h | h
            · exact absurd (lt_of_le_of_lt (hc1 h) hab) (not_lt.mpr hbe)
            · rcases lt_or_le v beta with h' | h'
              · exact (hc2 h h') ▸ hbe
              · exact h'
          have hF : beta ≤ absMaxLoopF childF avail rest (max meF v) :=
            le_trans (le_trans hbv (le_max_right meF v))
              (le_absMaxLoopF childF avail rest _)
          have ha0b : alpha0 < beta := lt_of_le_of_lt halpha0a hab
          refine ⟨?_, ?_, ?_⟩
          · intro h; exact absurd (le_trans hF h) (not_le.mpr ha0b)
          · intro _ h2; exact absurd hF (not_le.mpr h2)
          · intro _; exact le_trans hbe (le_max_right meP ev)
        · rw [if_neg hbr]
          have ha' : max a ev < beta := not_le.mp hbr
          have hinv : max a ev = max alpha0 (max meP ev) := by
            rw [ha, max_assoc]
          have hKM' : KMrel (max meP ev) (max meF v) alpha0 beta := by
            obtain ⟨h1, h2, h3⟩ := hKM
            refine ⟨?_, ?_, ?_⟩
            · intro h
              have hmf : meF ≤ alpha0 := le_trans (le_max_left _ _) h
              have hvv : v ≤ alpha0 := le_trans (le_max_right _ _) h
              have hmp : meP ≤ alpha0 := h1 hmf
              have haa : a = alpha0 := by rw [ha]; exact max_eq_left hmp
              have hevle : ev ≤ a := hc1 (by rw [haa]; exact hvv)
              exact max_le hmp (haa ▸ hevle)
            · intro hl hr
              rcases max_cases meF v with ⟨hq, hq2⟩ | ⟨hq, hq2⟩
              · rw [hq] at hl hr ⊢
                have hme : meP = meF := h2 hl hr
                have hame : a = meP := by
                  rw [ha]; exact max_eq_right (le_of_lt (hme ▸ hl))
                have hevle : ev ≤ a := hc1 (by rw [hame, hme]; exact hq2)
                rw [max_eq_left (hame ▸ hevle), hme]
              · rw [hq] at hl hr ⊢
                have hav : a < v := by
                  rw [ha]
                  rcases le_or_lt meF alpha0 with hm | hm
                  · exact max_lt hl (lt_of_le_of_lt (h1 hm) hl)
                  · have hme : meP = meF := h2 hm (lt_trans hq2 hr)
                    exact max_lt hl (hme ▸ hq2)
                have hevv : ev = v := hc2 hav hr
                rw [hevv]
                exact max_eq_right (le_of_lt (lt_of_le_of_lt hmePa hav))
            · intro h
              rcases le_max_iff.mp h with h' | h'
              · exact le_trans (h3 h') (le_max_left _ _)
              · exact le_trans (hc3 h') (le_max_right _ _)
          exact ih (max meP ev) (max meF v) (max a ev) ha' hinv hKM'
      · simp only [absMaxLoop, absMaxLoopF, hs, if_false]
        exact ih meP meF a hab ha hKM

/-- Knuth-Moore invariant for the minimizing loop, dual to
`absMaxLoop_KM`: `b` always equals `min beta0 meP`. -/
theorem absMinLoop_KM (childP : Nat → XInt → XInt → XInt) (childF : Nat → XInt)
    (avail : Nat → Bool) (alpha beta0 : XInt)
    (hchild : ∀ i, avail i = true → ∀ b, alpha < b →
      KMrel (childP i alpha b) (childF i) alpha b) :
    ∀ (idxs : List Nat) (meP meF b : XInt), alpha < b → b = min beta0 meP →
      KMrel meP meF alpha beta0 →
      KMrel (absMinLoop childP avail alpha idxs meP b)
            (absMinLoopF childF avail idxs meF) alpha beta0 := by
  intro idxs
  induction idxs with
  | nil => intro meP meF b _ _ hKM; exact hKM
  | cons i rest ih =>
      intro meP meF b hab hb hKM
      by_cases hs : avail i
      · simp only [absMinLoop, absMinLoopF, hs, if_true]
        obtain ⟨hc1, hc2, hc3⟩ := hchild i hs b hab
        set ev := childP i alpha b with hev
        set v := childF i with hv
        have hbbeta0 : b ≤ beta0 := hb ▸ min_le_left _ _
        have hbmeP : b ≤ meP := hb ▸ min_le_right _ _
        by_cases hbr : min b ev ≤ alpha
        · rw [if_pos hbr]
          have hbe : ev ≤ alpha := by
            rcases le_or_lt b ev with h | h
            · rw [min_eq_left h] at hbr
              exact absurd hbr (not_le.mpr hab)
            · rcases min_le_iff.mp hbr with h' | h'
              · exact absurd h' (not_le.mpr hab)
              · exact h'
          have hbv : v ≤ alpha := by
            rcases le_or_lt b v with h | h
            · exact absurd (lt_of_lt_of_le hab (hc3 h)) (not_lt.mpr hbe)
            · rcases lt_or_le alpha v with h' | h'
              · exact (hc2 h' h) ▸ hbe
              · exact h'
          have hF : absMinLoopF childF avail rest (min meF v) ≤ alpha :=
            le_trans (absMinLoopF_le childF avail rest _)
              (le_trans (min_le_right meF v) hbv)
          have hab0 : alpha < beta0 := lt_of_lt_of_le hab hbbeta0
          refine ⟨?_, ?_, ?_⟩
          · intro _; exact le_trans (min_le_right meP ev) hbe
          · intro h1 _; exact absurd hF (not_le.mpr h1)
          · intro h; exact absurd (le_trans h hF) (not_le.mpr hab0)
        · rw [if_neg hbr]
          have hb' : alpha < min b ev := not_le.mp hbr
          have hinv : min b ev = min beta0 (min meP ev) := by
            rw [hb, min_assoc]
          have hKM' : KMrel (min meP ev) (min meF v) alpha beta0 := by
            obtain ⟨h1, h2, h3⟩ := hKM
            refine ⟨?_, ?_, ?_⟩
            · intro h
              rcases min_le_iff.mp h with h' | h'
              · exact le_trans (min_le_left _ _) (h1 h')
              · exact le_trans (min_le_right _ _) (hc1 h')
            · intro hl hr
              rcases min_cases meF v with ⟨hq, hq2⟩ | ⟨hq, hq2⟩
              · rw [hq] at hl hr ⊢
                have hme : meP = meF := h2 hl hr
                have hbme : b = meP := by
                  rw [hb]; exact min_eq_right (le_of_lt (hme ▸ hr))
                have hevge : b ≤ ev := hc3 (by rw [hbme, hme]; exact hq2)
                rw [min_eq_left (hbme ▸ hevge), hme]
              · rw [hq] at hl hr ⊢
                have hvb : v < b := by
                  rw [hb]
                  rcases le_or_lt beta0 meF with hm | hm
                  · exact lt_min hr (lt_of_lt_of_le hr (h3 hm))
                  · have hme : meP = meF := h2 (lt_trans hl hq2) hm
                    exact lt_min hr (hme ▸ hq2)
                have hevv : ev = v := hc2 hl hvb
                rw [hevv]
                exact min_eq_right (le_of_lt (lt_of_lt_of_le hvb hbmeP))
            · intro h
              have hmf : beta0 ≤ meF := le_trans h (min_le_left _ _)
              have hvv : beta0 ≤ v := le_trans h (min_le_right _ _)
              have hmp : beta0 ≤ meP := h3 hmf
              have hbb : b = beta0 := by rw [hb]; exact min_eq_left hmp
              have hevge : b ≤ ev := hc3 (by rw [hbb]; exact hvv)
              exact le_min hmp (hbb ▸ hevge)
          exact ih (min meP ev) (min meF v) (min b ev) hb' hinv hKM'
      · simp only [absMinLoop, absMinLoopF, hs, if_false]
        exact ih meP meF b hab hb hKM

/-! ## Connect 4 board (src/components/connect4/Board.js) -/

namespace Connect4

/-- A Connect 4 board: entry at row `r` (0 = top), column `c`; `0` is empty,
`1` and `2` are the players.  Only `r < 6`, `c < 7` is meaningful. -/
abbrev C4Board := Nat → Nat → Nat

/-- `this.rows` in Board.js. -/
def rows : Nat := 6

/-- `this.cols` in Board.js. -/
def cols : Nat := 7

/-- `createEmptyBoard`. -/
def emptyBoard : C4Board := fun _ _ => 0

/-- Writing one cell of the board (JS `this.board[r][c] = v`). -/
def setCell (b : C4Board) (r c v : Nat) : C4Board :=
  fun r' c' => if r' = r ∧ c' = c then v else b r' c'

/-- The loop of `dropPiece`: `rp` rows remain to try, the next row tried is
`rp - 1` (the JS loop runs `row = rows-1` down to `0`). -/
def dropPieceAux (b : C4Board) (col player : Nat) : Nat → Int × C4Board
  | 0 => (-1, b)
  | rp + 1 =>
      if b rp col = 0 then ((rp : Int), setCell b rp col player)
      else dropPieceAux b col player rp

/-- `dropPiece(col, player)`: returns the landing row (or `-1` when the
column is full) together with the updated board. -/
def dropPiece (b : C4Board) (col player : Nat) : Int × C4Board :=
  dropPieceAux b col player rows

/-- `isColumnFull(col)`. -/
def isColumnFull (b : C4Board) (col : Nat) : Bool :=
  b 0 col ≠ 0

/-- `isFull()`. -/
def isFull (b : C4Board) : Bool :=
  (List.range cols).all fun c => b 0 c ≠ 0

/-- `checkWin(player)`: the four scan loops of Board.js (horizontal,
vertical, diagonal down-right, diagonal down-left). -/
def checkWin (b : C4Board) (player : Nat) : Bool :=
  ((List.range rows).any fun row => (List.range (cols - 3)).any fun col =>
    b row col = player ∧ b row (col + 1) = player ∧
    b row (col + 2) = player ∧ b row (col + 3) = player) ||
  ((List.range (rows - 3)).any fun row => (List.range cols).any fun col =>
    b row col = player ∧ b (row + 1) col = player ∧
    b (row + 2) col = player ∧ b (row + 3) col = player) ||
  ((List.range (rows - 3)).any fun row => (List.range (cols - 3)).any fun col =>
    b row col = player ∧ b (row + 1) (col + 1) = player ∧
    b (row + 2) (col + 2) = player ∧ b (row + 3) (col + 3) = player) ||
  ((List.range (rows - 3)).any fun row => (List.range (cols - 3)).any fun i =>
    b row (i + 3) = player ∧ b (row + 1) (i + 3 - 1) = player ∧
    b (row + 2) (i + 3 - 2) = player ∧ b (row + 3) (i + 3 - 3) = player)

/-- Specification predicate for C2, following the claim text: the board
contains four consecutive cells equal to `p` in some row, some column, or
some diagonal (down-right or down-left). -/
def HasFourInARow (b : C4Board) (p : Nat) : Prop :=
  (∃ r < rows, ∃ c, c + 3 < cols ∧ ∀ i < 4, b r (c + i) = p) ∨
  (∃ r, r + 3 < rows ∧ ∃ c < cols, ∀ i < 4, b (r + i) c = p) ∨
  (∃ r, r + 3 < rows ∧ ∃ c, c + 3 < cols ∧ ∀ i < 4, b (r + i) (c + i) = p) ∨
  (∃ r, r + 3 < rows ∧ ∃ c, 3 ≤ c ∧ c < cols ∧ ∀ i < 4, b (r + i) (c - i) = p)

theorem forall_lt_four {Q : Nat → Prop} :
    (∀ i < 4, Q i) ↔ Q 0 ∧ Q 1 ∧ Q 2 ∧ Q 3 := by
  constructor
  · intro h
    exact ⟨h 0 (by omega), h 1 (by omega), h 2 (by omega), h 3 (by omega)⟩
  · rintro ⟨h0, h1, h2, h3⟩ i hi
    interval_cases i <;> assumption

/-- Characterisation of the `dropPieceAux` loop: either every row it may
try is occupied and it leaves the board untouched returning `-1`, or it
finds the deepest empty row among them and writes the player there. -/
theorem dropPieceAux_spec (b : C4Board) (col player : Nat) : ∀ n : Nat,
    ((∀ r < n, b r col ≠ 0) ∧ dropPieceAux b col player n = (-1, b)) ∨
    (∃ r < n, b r col = 0 ∧ (∀ r', r < r' → r' < n → b r' col ≠ 0) ∧
      dropPieceAux b col player n = ((r : Int), setCell b r col player)) := by
  intro n
  induction n with
  | zero => exact Or.inl ⟨by omega, rfl⟩
  | succ m ih =>
      by_cases h : b m col = 0
      · refine Or.inr ⟨m, by omega, h, ?_, ?_⟩
        · intro r' h1 h2; omega
        · simp [dropPieceAux, h]
      · rcases ih with ⟨hall, heq⟩ | ⟨r, hr, hz, habove, heq⟩
        · refine Or.inl ⟨?_, ?_⟩
          · intro r hrm
            rcases Nat.lt_succ_iff_lt_or_eq.mp hrm with h' | h'
            · exact hall r h'
            · simpa [h'] using h
          · simpa [dropPieceAux, h] using heq
        · refine Or.inr ⟨r, by omega, hz, ?_, ?_⟩
          · intro r' h1 h2
            rcases Nat.lt_succ_iff_lt_or_eq.mp h2 with h' | h'
            · exact habove r' h1 h'
            · simpa [h'] using h
          · simpa [dropPieceAux, h] using heq

end Connect4

/-- C2: `Board.checkWin(p)` returns true iff the board contains four
consecutive cells equal to `p` in some row, some column, or some diagonal
(down-right or down-left). -/
theorem C2_checkWin_iff_hasFourInARow (b : Connect4.C4Board) (p : Nat) :
    Connect4.checkWin b p = true ↔ Connect4.HasFourInARow b p := by
  unfold Connect4.checkWin Connect4.HasFourInARow
  simp only [Connect4.rows, Connect4.cols, Bool.or_eq_true, List.any_eq_true,
    List.mem_range, decide_eq_true_eq, Connect4.forall_lt_four]
  constructor
  · rintro (((⟨r, hr, c, hc, h⟩ | ⟨r, hr, c, hc, h⟩) | ⟨r, hr, c, hc, h⟩) |
      ⟨r, hr, i, hi, h⟩)
    · exact Or.inl ⟨r, hr, c, by omega, by simpa using h⟩
    · exact Or.inr (Or.inl ⟨r, by omega, c, hc, by simpa using h⟩)
    · exact Or.inr (Or.inr (Or.inl ⟨r, by omega, c, by omega, by simpa using h⟩))
    · refine Or.inr (Or.inr (Or.inr ⟨r, by omega, i + 3, by omega, by omega, ?_⟩))
      obtain ⟨h0, h1, h2, h3⟩ := h
      refine ⟨by simpa using h0, ?_, ?_, ?_⟩
      · show b (r + 1) (i + 3 - 1) = p; simpa using h1
      · show b (r + 2) (i + 3 - 2) = p; simpa using h2
      · show b (r + 3) (i + 3 - 3) = p; simpa using h3
  · rintro (⟨r, hr, c, hc, h⟩ | ⟨r, hr, c, hc, h⟩ | ⟨r, hr, c, hc, h⟩ |
      ⟨r, hr, c, hc3, hc, h⟩)
    · exact Or.inl (Or.inl (Or.inl ⟨r, hr, c, by omega, by simpa using h⟩))
    · exact Or.inl (Or.inl (Or.inr ⟨r, by omega, c, hc, by simpa using h⟩))
    · exact Or.inl (Or.inr ⟨r, by omega, c, by omega, by simpa using h⟩)
    · refine Or.inr ⟨r, by omega, c - 3, by omega, ?_⟩
      obtain ⟨h0, h1, h2, h3⟩ := h
      have e : c - 3 + 3 = c := by omega
      refine ⟨?_, ?_, ?_, ?_⟩
      · rw [e]; simpa using h0
      · show b (r + 1) (c - 3 + 3 - 1) = p
        have : c - 3 + 3 - 1 = c - 1 := by omega
        rw [this]; simpa using h1
      · show b (r + 2) (c - 3 + 3 - 2) = p
        have : c - 3 + 3 - 2 = c - 2 := by omega
        rw [this]; simpa using h2
      · show b (r + 3) (c - 3 + 3 - 3) = p
        have : c - 3 + 3 - 3 = c - 3 := by omega
        rw [this]; simpa using h3

/-- C9: `dropPiece(col, player)` either returns `-1` leaving the board
unchanged (exactly when the column has no empty cell among rows 0..5), or
writes `player` into the single cell at the largest empty row index of the
column, returns that row, and leaves all other cells unchanged. -/
theorem C9_dropPiece_spec (b : Connect4.C4Board) (col player : Nat) :
    ((∀ r < Connect4.rows, b r col ≠ 0) ∧
      (Connect4.dropPiece b col player).1 = -1 ∧
      (Connect4.dropPiece b col player).2 = b) ∨
    (∃ r < Connect4.rows, b r col = 0 ∧
      (∀ r', r < r' → r' < Connect4.rows → b r' col ≠ 0) ∧
      (Connect4.dropPiece b col player).1 = (r : Int) ∧
      (Connect4.dropPiece b col player).2 r col = player ∧
      (∀ r' c', ¬(r' = r ∧ c' = col) →
        (Connect4.dropPiece b col player).2 r' c' = b r' c')) := by
  rcases Connect4.dropPieceAux_spec b col player Connect4.rows with
    ⟨hall, heq⟩ | ⟨r, hr, hz, habove, heq⟩
  · exact Or.inl ⟨hall, by simp [Connect4.dropPiece, heq], by simp [Connect4.dropPiece, heq]⟩
  · refine Or.inr ⟨r, hr, hz, habove, ?_, ?_, ?_⟩
    · simp [Connect4.dropPiece, heq]
    · simp [Connect4.dropPiece, heq, Connect4.setCell]
    · intro r' c' hne
      simp only [Connect4.dropPiece, heq, Connect4.setCell]
      rw [if_neg hne]

/-! ## Tic-Tac-Toe (src/screens/tictactoe.js, class TicTacToeGame) -/

/-- The two Tic-Tac-Toe marks, JS strings `'X'` and `'O'`. -/
inductive TPlayer where
  | pX : TPlayer
  | pO : TPlayer
deriving DecidableEq, Repr

/-- A Tic-Tac-Toe board: the flat `Array(gridSize * gridSize)` of
`'X' | 'O' | null` cells. -/
abbrev TBoard := List (Option TPlayer)

/-- Possible values of the JS `winner` field once set: `'X'`, `'O'` or
`'Draw'`. -/
inductive TOutcome where
  | winX : TOutcome
  | winO : TOutcome
  | draw : TOutcome
deriving DecidableEq, Repr

/-- The cell-index lines scanned by `checkWinner`, in the exact loop
order of the source (rows, columns, down-right diagonals, down-left
diagonals), with `winCondition = gridSize`. -/
def tttLines (size : Nat) : List (List Nat) :=
  let winCondition := size
  ((List.range size).flatMap fun row =>
    (List.range (size - winCondition + 1)).map fun col =>
      (List.range winCondition).map fun i => row * size + col + i) ++
  ((List.range size).flatMap fun col =>
    (List.range (size - winCondition + 1)).map fun row =>
      (List.range winCondition).map fun i => (row + i) * size + col) ++
  ((List.range (size - winCondition + 1)).flatMap fun row =>
    (List.range (size - winCondition + 1)).map fun col =>
      (List.range winCondition).map fun i => (row + i) * size + col + i) ++
  ((List.range (size - winCondition + 1)).flatMap fun row =>
    (List.range (size - winCondition + 1)).map fun j =>
      (List.range winCondition).map fun i => (row + i) * size + (j + winCondition - 1) - i)

/-- `checkLine(line)`: the first cell is non-null and every cell of the
line equals it. -/
def checkLine (board : TBoard) (line : List Nat) : Bool :=
  match line with
  | [] => false
  | j :: _ =>
      match board.getD j none with
      | none => false
      | some p => line.all fun k => board.getD k none = some p

/-- Pure reading of `checkWinner()`: the winner is the first cell of the
first matching line in scan order; with no matching line the game is a
draw exactly when `moveCount` equals `gridSize * gridSize`. -/
def checkWinner (size : Nat) (board : TBoard) (moveCount : Nat) : Option TOutcome :=
  match (tttLines size).find? (fun line => checkLine board line) with
  | some line =>
      match line with
      | [] => none
      | j :: _ =>
          match board.getD j none with
          | some TPlayer.pX => some TOutcome.winX
          | some TPlayer.pO => some TOutcome.winO
          | none => none
  | none => if moveCount = size * size then some TOutcome.draw else none

/-- `board.filter(cell => cell !== null).length`, the move count the
minimax recomputes for the scratch board. -/
def filledCount (board : TBoard) : Nat :=
  (board.filter fun c => c.isSome).length

/-- `TicTacToeGame.minimax(board, depth, isMaximizing, alpha, beta)` with
its alpha-beta cuts.  `fuel` bounds the recursion depth (the JS recursion
terminates because empty cells run out); at fuel 0 the value `0` is
returned, a case never reached when `fuel` exceeds the number of empty
cells. -/
def tttMinimax (size : Nat) : Nat → TBoard → Nat → Bool → XInt → XInt → XInt
  | 0, _, _, _, _, _ => XInt.num 0
  | fuel + 1, board, depth, isMax, alpha, beta =>
      match checkWinner size board (filledCount board) with
      | some TOutcome.winO => XInt.num (10 - (depth : Int))
      | some TOutcome.winX => XInt.num ((depth : Int) - 10)
      | some TOutcome.draw => XInt.num 0
      | none =>
          if size > 3 ∧ depth ≥ 4 then XInt.num 0
          else if isMax then
            absMaxLoop
              (fun i a b =>
                tttMinimax size fuel (board.set i (some TPlayer.pO)) (depth + 1) false a b)
              (fun i => board.getD i none = none)
              beta (List.range board.length) XInt.negInf alpha
          else
            absMinLoop
              (fun i a b =>
                tttMinimax size fuel (board.set i (some TPlayer.pX)) (depth + 1) true a b)
              (fun i => board.getD i none = none)
              alpha (List.range board.length) XInt.posInf beta

/-- The identical recursion with the `if (beta <= alpha) break` branches
removed (the alpha/beta arguments are dropped as well: without the cut
they influence nothing). -/
def tttMinimaxP (size : Nat) : Nat → TBoard → Nat → Bool → XInt
  | 0, _, _, _ => XInt.num 0
  | fuel + 1, board, depth, isMax =>
      match checkWinner size board (filledCount board) with
      | some TOutcome.winO => XInt.num (10 - (depth : Int))
      | some TOutcome.winX => XInt.num ((depth : Int) - 10)
      | some TOutcome.draw => XInt.num 0
      | none =>
          if size > 3 ∧ depth ≥ 4 then XInt.num 0
          else if isMax then
            absMaxLoopF
              (fun i => tttMinimaxP size fuel (board.set i (some TPlayer.pO)) (depth + 1) false)
              (fun i => board.getD i none = none)
              (List.range board.length) XInt.negInf
          else
            absMinLoopF
              (fun i => tttMinimaxP size fuel (board.set i (some TPlayer.pX)) (depth + 1) true)
              (fun i => board.getD i none = none)
              (List.range board.length) XInt.posInf

/-- Knuth-Moore fail-soft property of the Tic-Tac-Toe alpha-beta search
with respect to its unpruned version. -/
theorem tttMinimax_KM (size : Nat) :
    ∀ (fuel : Nat) (board : TBoard) (depth : Nat) (isMax : Bool) (alpha beta : XInt),
      alpha < beta →
      KMrel (tttMinimax size fuel board depth isMax alpha beta)
            (tttMinimaxP size fuel board depth isMax) alpha beta := by
  intro fuel
  induction fuel with
  | zero => intro board depth isMax alpha beta _; exact KMrel_self _ _ _
  | succ f ih =>
      intro board depth isMax alpha beta hab
      simp only [tttMinimax, tttMinimaxP]
      cases hw : checkWinner size board (filledCount board) with
      | some out => cases out <;> exact KMrel_self _ _ _
      | none =>
          by_cases hcut : size > 3 ∧ depth ≥ 4
          · simp only [hcut, if_true]
            exact KMrel_self _ _ _
          · simp only [hcut, if_false]
            cases isMax with
            | true =>
                simp only [if_true]
                refine absMaxLoop_KM _ _ _ alpha beta ?_ _ _ _ _ hab ?_ ?_
                · intro i _ a ha
                  exact ih (board.set i (some TPlayer.pO)) (depth + 1) false a beta ha
                · exact (max_eq_left (XInt.negInf_le alpha)).symm
                · exact KMrel_self _ _ _
            | false =>
                simp only [Bool.false_eq_true, if_false]
                refine absMinLoop_KM _ _ _ alpha beta ?_ _ _ _ _ hab ?_ ?_
                · intro i _ b hb
                  exact ih (board.set i (some TPlayer.pX)) (depth + 1) true alpha b hb
                · exact (min_eq_left (XInt.le_posInf beta)).symm
                · exact KMrel_self _ _ _

/-! ## Connect 4 AI (src/unnamed GameEngine.js, minimax + heuristic) -/

namespace Connect4

/-- `evaluateWindow(window, player)`: heuristic score of one window of
four cells. -/
def evaluateWindow (w : List Nat) (player : Nat) : Int :=
  let opponent := if player = 1 then 2 else 1
  let playerCount := (w.filter fun cell => cell = player).length
  let emptyCount := (w.filter fun cell => cell = 0).length
  let opponentCount := (w.filter fun cell => cell = opponent).length
  (if playerCount = 4 then (100 : Int)
   else if playerCount = 3 ∧ emptyCount = 1 then 5
   else if playerCount = 2 ∧ emptyCount = 2 then 2
   else 0) +
  (if opponentCount = 3 ∧ emptyCount = 1 then (-4 : Int) else 0)

/-- All windows of four scanned by `scorePosition`, in source order:
horizontal, vertical, diagonal down-right, diagonal down-left. -/
def allWindows (b : C4Board) : List (List Nat) :=
  ((List.range rows).flatMap fun row => (List.range (cols - 3)).map fun col =>
    [b row col, b row (col + 1), b row (col + 2), b row (col + 3)]) ++
  ((List.range cols).flatMap fun col => (List.range (rows - 3)).map fun row =>
    [b row col, b (row + 1) col, b (row + 2) col, b (row + 3) col]) ++
  ((List.range (rows - 3)).flatMap fun row => (List.range (cols - 3)).map fun col =>
    [b row col, b (row + 1) (col + 1), b (row + 2) (col + 2), b (row + 3) (col + 3)]) ++
  ((List.range (rows - 3)).flatMap fun row => (List.range (cols - 3)).map fun i =>
    [b row (i + 3), b (row + 1) (i + 3 - 1), b (row + 2) (i + 3 - 2), b (row + 3) (i + 3 - 3)])

/-- `scorePosition(board, player)`: sum of window scores. -/
def scorePosition (b : C4Board) (player : Nat) : Int :=
  ((allWindows b).map fun w => evaluateWindow w player).sum

/-- Number of AI pieces in the center column (column 3). -/
def centerCount (b : C4Board) : Nat :=
  (((List.range rows).map fun r => b r 3).filter fun cell => cell = 2).length

/-- `evaluateBoard(board)`: center control plus window scores for the AI
minus window scores for the human. -/
def evaluateBoard (b : C4Board) : Int :=
  (centerCount b : Int) * 3 + scorePosition b 2 - scorePosition b 1

/-- `GameEngine.minimax(board, depth, isMaximizing, alpha, beta)`.  The
recursion is structural on `depth` (the JS search decrements `depth` and
stops at 0). -/
def c4Minimax : Nat → C4Board → Bool → XInt → XInt → XInt
  | 0, board, _, _, _ =>
      if checkWin board 2 then XInt.num (1000 + (0 : Int))
      else if checkWin board 1 then XInt.num (-1000 - (0 : Int))
      else XInt.num (evaluateBoard board)
  | depth + 1, board, isMax, alpha, beta =>
      if checkWin board 2 then XInt.num (1000 + ((depth : Int) + 1))
      else if checkWin board 1 then XInt.num (-1000 - ((depth : Int) + 1))
      else if isFull board then XInt.num (evaluateBoard board)
      else if isMax then
        absMaxLoop
          (fun col a b => c4Minimax depth (dropPiece board col 2).2 false a b)
          (fun col => !isColumnFull board col)
          beta (List.range cols) XInt.negInf alpha
      else
        absMinLoop
          (fun col a b => c4Minimax depth (dropPiece board col 1).2 true a b)
          (fun col => !isColumnFull board col)
          alpha (List.range cols) XInt.posInf beta

/-- The identical recursion with the `if (beta <= alpha) break` branches
removed (and therefore without the dead alpha/beta arguments). -/
def c4MinimaxP : Nat → C4Board → Bool → XInt
  | 0, board, _ =>
      if checkWin board 2 then XInt.num (1000 + (0 : Int))
      else if checkWin board 1 then XInt.num (-1000 - (0 : Int))
      else XInt.num (evaluateBoard board)
  | depth + 1, board, isMax =>
      if checkWin board 2 then XInt.num (1000 + ((depth : Int) + 1))
      else if checkWin board 1 then XInt.num (-1000 - ((depth : Int) + 1))
      else if isFull board then XInt.num (evaluateBoard board)
      else if isMax then
        absMaxLoopF
          (fun col => c4MinimaxP depth (dropPiece board col 2).2 false)
          (fun col => !isColumnFull board col)
          (List.range cols) XInt.negInf
      else
        absMinLoopF
          (fun col => c4MinimaxP depth (dropPiece board col 1).2 true)
          (fun col => !isColumnFull board col)
          (List.range cols) XInt.posInf

/-- Knuth-Moore fail-soft property of the Connect 4 alpha-beta search
with respect to its unpruned version. -/
theorem c4Minimax_KM :
    ∀ (depth : Nat) (board : C4Board) (isMax : Bool) (alpha beta : XInt),
      alpha < beta →
      KMrel (c4Minimax depth board isMax alpha beta)
            (c4MinimaxP depth board isMax) alpha beta := by
  intro depth
  induction depth with
  | zero =>
      intro board isMax alpha beta _
      simp only [c4Minimax, c4MinimaxP]
      exact KMrel_self _ _ _
  | succ d ih =>
      intro board isMax alpha beta hab
      simp only [c4Minimax, c4MinimaxP]
      by_cases h2 : checkWin board 2
      · simp only [h2, if_true]; exact KMrel_self _ _ _
      · simp only [h2, if_false]
        by_cases h1 : checkWin board 1
        · simp only [h1, if_true]; exact KMrel_self _ _ _
        · simp only [h1, if_false]
          by_cases hf : isFull board
          · simp only [hf, if_true]; exact KMrel_self _ _ _
          · simp only [hf, if_false]
            cases isMax with
            | true =>
                simp only [if_true]
                refine absMaxLoop_KM _ _ _ alpha beta ?_ _ _ _ _ hab ?_ ?_
                · intro col _ a ha
                  exact ih (dropPiece board col 2).2 false a beta ha
                · exact (max_eq_left (XInt.negInf_le alpha)).symm
                · exact KMrel_self _ _ _
            | false =>
                simp only [Bool.false_eq_true, if_false]
                refine absMinLoop_KM _ _ _ alpha beta ?_ _ _ _ _ hab ?_ ?_
                · intro col _ b hb
                  exact ih (dropPiece board col 1).2 true alpha b hb
                · exact (min_eq_left (XInt.le_posInf beta)).symm
                · exact KMrel_self _ _ _

end Connect4

/-- C1: with the initial window `alpha = -Infinity`, `beta = +Infinity`,
both alpha-beta minimax implementations (TicTacToeGame.minimax and the
Connect 4 GameEngine.minimax) return the same value as the identical
recursion with the `if (beta <= alpha) break` branches removed: the
pruning never changes the computed game value. -/
theorem C1_alphabeta_eq_unpruned_minimax :
    (∀ (size fuel : Nat) (board : TBoard) (depth : Nat) (isMax : Bool),
      tttMinimax size fuel board depth isMax XInt.negInf XInt.posInf =
        tttMinimaxP size fuel board depth isMax) ∧
    (∀ (depth : Nat) (board : Connect4.C4Board) (isMax : Bool),
      Connect4.c4Minimax depth board isMax XInt.negInf XInt.posInf =
        Connect4.c4MinimaxP depth board isMax) := by
  constructor
  · intro size fuel board depth isMax
    exact (tttMinimax_KM size fuel board depth isMax XInt.negInf XInt.posInf
      (by decide)).eq_of_full_window
  · intro depth board isMax
    exact (Connect4.c4Minimax_KM depth board isMax XInt.negInf XInt.posInf
      (by decide)).eq_of_full_window

/-! ## Tetris grid (src/unnamed Tetris.js, class TetrisGrid) -/

namespace Tetris

/-- A Tetris cell: `null` or a color string. -/
abbrev Cell := Option String

/-- The `matrix` field of `TetrisGrid`: a list of rows. -/
abbrev TMatrix := List (List Cell)

/-- A fresh all-null row, `Array(this.cols).fill(null)`. -/
def emptyRow (cols : Nat) : List Cell :=
  List.replicate cols none

/-- `this.matrix[r].every(v => v !== null)`. -/
def isFullRow (row : List Cell) : Bool :=
  row.all fun v => v.isSome

/-- The `clearLines` loop.  `rp` encodes the loop variable `r` as
`r = rp - 1` with `rp = 0` meaning `r < 0` (loop over); on a full row the
code does `splice(r, 1)` (here `take r ++ drop (r+1)`), `unshift(empty)`,
increments `cleared`, and re-checks the same index (`r++` then `r--`);
otherwise `r` decreases.  `fuel` bounds the iteration count. -/
def clearLinesLoop (cols : Nat) : Nat → TMatrix → Nat → Nat → TMatrix × Nat
  | 0, m, _, cleared => (m, cleared)
  | _ + 1, m, 0, cleared => (m, cleared)
  | fuel + 1, m, r + 1, cleared =>
      if isFullRow (m.getD r []) then
        clearLinesLoop cols fuel
          (emptyRow cols :: (m.take r ++ m.drop (r + 1))) (r + 1) (cleared + 1)
      else
        clearLinesLoop cols fuel m r cleared

/-- `TetrisGrid.clearLines()`: runs the loop from the bottom row and
returns the new matrix together with the number of cleared lines. -/
def clearLines (m : TMatrix) (cols : Nat) : TMatrix × Nat :=
  clearLinesLoop cols (2 * m.length + 1) m m.length 0

theorem emptyRow_not_full {cols : Nat} (h : 0 < cols) :
    isFullRow (emptyRow cols) = false := by
  cases cols with
  | zero => omega
  | succ c => simp [isFullRow, emptyRow, List.replicate_succ]

/-- Scanning a prefix of all-empty rows only decrements the loop index. -/
theorem clearLinesLoop_empty_prefix {cols : Nat} (hc : 0 < cols) :
    ∀ (rp c fuel cleared : Nat) (D : TMatrix), rp ≤ c →
      clearLinesLoop cols fuel (List.replicate c (emptyRow cols) ++ D) rp cleared =
        (List.replicate c (emptyRow cols) ++ D, cleared) := by
  intro rp
  induction rp with
  | zero =>
      intro c fuel cleared D _
      cases fuel <;> rfl
  | succ r ih =>
      intro c fuel cleared D hrc
      cases fuel with
      | zero => rfl
      | succ f =>
          have hget : (List.replicate c (emptyRow cols) ++ D).getD r [] = emptyRow cols := by
            rw [List.getD_append _ _ _ _ (by simpa using hrc)]
            simp [List.getD_eq_getElem?_getD, List.getElem?_replicate, Nat.lt_of_succ_le hrc]
          simp only [clearLinesLoop, hget, emptyRow_not_full hc, if_false]
          exact ih c f cleared D (by omega)

/-- Main invariant of the `clearLines` loop: scanning the original rows
`U` bottom-up above a processed suffix `D` and below a prefix of already
inserted empty rows removes exactly the full rows of `U`, pushing one
empty row on top for each. -/
theorem clearLinesLoop_spec {cols : Nat} (hc : 0 < cols) :
    ∀ (U D : TMatrix) (c fuel : Nat), 2 * U.length + c + 1 ≤ fuel →
      clearLinesLoop cols fuel
          (List.replicate c (emptyRow cols) ++ U ++ D) (c + U.length) c =
        (List.replicate (c + (U.filter isFullRow).length) (emptyRow cols) ++
          (U.filter fun r => !isFullRow r) ++ D,
         c + (U.filter isFullRow).length) := by
  intro U
  induction U using List.reverseRecOn with
  | nil =>
      intro D c fuel _
      simpa using clearLinesLoop_empty_prefix hc c c fuel c D (le_refl c)
  | append_singleton U' u ih =>
      intro D c fuel hfuel
      cases fuel with
      | zero => simp at hfuel
      | succ f =>
          have hm : List.replicate c (emptyRow cols) ++ (U' ++ [u]) ++ D =
              (List.replicate c (emptyRow cols) ++ U') ++ (u :: D) := by
            simp [List.append_assoc]
          have hA : (List.replicate c (emptyRow cols) ++ U').length = c + U'.length := by
            simp
          have hrp : c + (U' ++ [u]).length = (c + U'.length) + 1 := by
            simp only [List.length_append, List.length_cons, List.length_nil]
            omega
          have hget : (List.replicate c (emptyRow cols) ++ (U' ++ [u]) ++ D).getD
              (c + U'.length) [] = u := by
            rw [hm, List.getD_append_right _ _ _ _ (le_of_eq hA), hA]
            simp
          rw [hrp]
          cases hu : isFullRow u with
          | true =>
              simp only [clearLinesLoop, hget, hu, if_true]
              have htake : (List.replicate c (emptyRow cols) ++ (U' ++ [u]) ++ D).take
                  (c + U'.length) = List.replicate c (emptyRow cols) ++ U' := by
                rw [hm, ← hA]
                exact List.take_left _ _
              have hdrop : (List.replicate c (emptyRow cols) ++ (U' ++ [u]) ++ D).drop
                  (c + U'.length + 1) = D := by
                have hm2 : List.replicate c (emptyRow cols) ++ (U' ++ [u]) ++ D =
                    (List.replicate c (emptyRow cols) ++ U' ++ [u]) ++ D := by
                  simp [List.append_assoc]
                have hA2 : (List.replicate c (emptyRow cols) ++ U' ++ [u]).length =
                    c + U'.length + 1 := by
                  simp only [List.length_append, List.length_replicate,
                    List.length_cons, List.length_nil]
                rw [hm2, ← hA2]
                exact List.drop_left _ _
              rw [htake, hdrop]
              have hstep : emptyRow cols :: (List.replicate c (emptyRow cols) ++ U' ++ D) =
                  List.replicate (c + 1) (emptyRow cols) ++ U' ++ D := by
                have : List.replicate (c + 1) (emptyRow cols) =
                    emptyRow cols :: List.replicate c (emptyRow cols) := List.replicate_succ _ _
                simp [this]
              rw [hstep]
              have hrec := ih D (c + 1) f (by
                simp only [List.length_append, List.length_cons, List.length_nil] at hfuel
                omega)
              have hrp2 : c + U'.length + 1 = (c + 1) + U'.length := by omega
              rw [hrp2, hrec]
              have hkf : ((U' ++ [u]).filter isFullRow).length =
                  (U'.filter isFullRow).length + 1 := by
                simp [List.filter_append, hu]
              have hnf : ((U' ++ [u]).filter fun r => !isFullRow r) =
                  U'.filter fun r => !isFullRow r := by
                simp [List.filter_append, hu]
              rw [hkf, hnf]
              have : c + 1 + (U'.filter isFullRow).length =
                  c + ((U'.filter isFullRow).length + 1) := by omega
              rw [this]
          | false =>
              simp only [clearLinesLoop, hget, hu, if_false]
              have hm3 : List.replicate c (emptyRow cols) ++ (U' ++ [u]) ++ D =
                  List.replicate c (emptyRow cols) ++ U' ++ (u :: D) := by
                simp [List.append_assoc]
              rw [hm3]
              have hrec := ih (u :: D) c f (by
                simp only [List.length_append, List.length_cons, List.length_nil] at hfuel
                omega)
              rw [hrec]
              have hkf : ((U' ++ [u]).filter isFullRow).length =
                  (U'.filter isFullRow).length := by
                simp [List.filter_append, hu]
              have hnf : ((U' ++ [u]).filter fun r => !isFullRow r) =
                  (U'.filter fun r => !isFullRow r) ++ [u] := by
                simp [List.filter_append, hu]
              rw [hkf, hnf]
              simp [List.append_assoc]

end Tetris

/-- C4: `TetrisGrid.clearLines` (on the 20x10 grid) removes exactly the
rows whose cells are all non-null, inserts the same number of all-null
rows at the top, preserves the relative order of the remaining rows,
keeps the 20x10 dimensions, and returns the number of removed rows. -/
theorem C4_clearLines_spec (m : Tetris.TMatrix)
    (hrows : m.length = 20) (hcols : ∀ row ∈ m, row.length = 10) :
    Tetris.clearLines m 10 =
      (List.replicate ((m.filter Tetris.isFullRow).length) (Tetris.emptyRow 10) ++
        m.filter (fun r => !Tetris.isFullRow r),
       (m.filter Tetris.isFullRow).length) ∧
    (Tetris.clearLines m 10).1.length = 20 ∧
    (∀ row ∈ (Tetris.clearLines m 10).1, row.length = 10) := by
  have hmain : Tetris.clearLines m 10 =
      (List.replicate ((m.filter Tetris.isFullRow).length) (Tetris.emptyRow 10) ++
        m.filter (fun r => !Tetris.isFullRow r),
       (m.filter Tetris.isFullRow).length) := by
    have h := @Tetris.clearLinesLoop_spec 10 (by omega) m [] 0
      (2 * m.length + 1) (by omega)
    simpa [Tetris.clearLines] using h
  refine ⟨hmain, ?_, ?_⟩
  · rw [hmain]
    simp only [List.length_append, List.length_replicate]
    have := @List.length_eq_length_filter_add _ m Tetris.isFullRow
    omega
  · rw [hmain]
    intro row hrow
    simp only [List.mem_append] at hrow
    rcases hrow with h | h
    · rw [List.eq_of_mem_replicate h]
      simp [Tetris.emptyRow]
    · exact hcols row (List.mem_of_mem_filter h)

/-- A concrete 20x10 grid: 18 empty rows, one full row, one empty row. -/
def tetrisWitnessGrid : Tetris.TMatrix :=
  List.replicate 18 (List.replicate 10 (none : Tetris.Cell)) ++
    [List.replicate 10 (some "g" : Tetris.Cell), List.replicate 10 (none : Tetris.Cell)]

/-- Witness for C4: on a concrete grid with one full row, `clearLines`
clears exactly that row and returns 1. -/
theorem C4_clearLines_spec_witness :
    Tetris.clearLines tetrisWitnessGrid 10 =
      (List.replicate 20 (Tetris.emptyRow 10), 1) := by
  have h := (C4_clearLines_spec tetrisWitnessGrid (by decide) (by decide)).1
  exact h.trans (by decide)

/-! ## Tic-Tac-Toe AI move selection (`getAIMove`) -/

/-- Results of the max loop stay finite: starting from a finite value, or
from `-Infinity` with at least one available move whose children evaluate
to finite values, the loop returns a finite value. -/
theorem absMaxLoop_num (childP : Nat → XInt → XInt → XInt) (avail : Nat → Bool)
    (beta : XInt)
    (hchild : ∀ i a, avail i = true → ∃ n, childP i a beta = XInt.num n) :
    ∀ (idxs : List Nat) (me a : XInt),
      ((∃ n, me = XInt.num n) ∨
        (me = XInt.negInf ∧ ∃ i ∈ idxs, avail i = true)) →
      ∃ n, absMaxLoop childP avail beta idxs me a = XInt.num n := by
  have hmax : ∀ (me : XInt) (n : Int), ((∃ k, me = XInt.num k) ∨ me = XInt.negInf) →
      ∃ m, max me (XInt.num n) = XInt.num m := by
    rintro me n (⟨k, rfl⟩ | rfl)
    · rcases le_total (XInt.num k) (XInt.num n) with h | h
      · exact ⟨n, max_eq_right h⟩
      · exact ⟨k, max_eq_left h⟩
    · exact ⟨n, max_eq_right (XInt.negInf_le _)⟩
  intro idxs
  induction idxs with
  | nil =>
      rintro me a (⟨n, rfl⟩ | ⟨_, i, hi, _⟩)
      · exact ⟨n, rfl⟩
      · simp at hi
  | cons i rest ih =>
      rintro me a hme
      by_cases hs : avail i
      · obtain ⟨n, hn⟩ := hchild i a hs
        simp only [absMaxLoop, hs, if_true, hn]
        have hm : ∃ m, max me (XInt.num n) = XInt.num m := by
          apply hmax
          rcases hme with ⟨k, hk⟩ | ⟨hk, _⟩
          · exact Or.inl ⟨k, hk⟩
          · exact Or.inr hk
        by_cases hbr : beta ≤ max a (XInt.num n)
        · rw [if_pos hbr]; exact hm
        · rw [if_neg hbr]
          exact ih _ _ (Or.inl hm)
      · simp only [absMaxLoop, hs, if_false]
        apply ih
        rcases hme with ⟨k, hk⟩ | ⟨hk, i', hi', hav⟩
        · exact Or.inl ⟨k, hk⟩
        · refine Or.inr ⟨hk, i', ?_, hav⟩
          rcases List.mem_cons.mp hi' with rfl | h
          · exact absurd hav (by simpa using hs)
          · exact h

/-- Dual statement for the min loop. -/
theorem absMinLoop_num (childP : Nat → XInt → XInt → XInt) (avail : Nat → Bool)
    (alpha : XInt)
    (hchild : ∀ i b, avail i = true → ∃ n, childP i alpha b = XInt.num n) :
    ∀ (idxs : List Nat) (me b : XInt),
      ((∃ n, me = XInt.num n) ∨
        (me = XInt.posInf ∧ ∃ i ∈ idxs, avail i = true)) →
      ∃ n, absMinLoop childP avail alpha idxs me b = XInt.num n := by
  have hmin : ∀ (me : XInt) (n : Int), ((∃ k, me = XInt.num k) ∨ me = XInt.posInf) →
      ∃ m, min me (XInt.num n) = XInt.num m := by
    rintro me n (⟨k, rfl⟩ | rfl)
    · rcases le_total (XInt.num k) (XInt.num n) with h | h
      · exact ⟨k, min_eq_left h⟩
      · exact ⟨n, min_eq_right h⟩
    · exact ⟨n, min_eq_right (XInt.le_posInf _)⟩
  intro idxs
  induction idxs with
  | nil =>
      rintro me b (⟨n, rfl⟩ | ⟨_, i, hi, _⟩)
      · exact ⟨n, rfl⟩
      · simp at hi
  | cons i rest ih =>
      rintro me b hme
      by_cases hs : avail i
      · obtain ⟨n, hn⟩ := hchild i b hs
        simp only [absMinLoop, hs, if_true, hn]
        have hm : ∃ m, min me (XInt.num n) = XInt.num m := by
          apply hmin
          rcases hme with ⟨k, hk⟩ | ⟨hk, _⟩
          · exact Or.inl ⟨k, hk⟩
          · exact Or.inr hk
        by_cases hbr : min b (XInt.num n) ≤ alpha
        · rw [if_pos hbr]; exact hm
        · rw [if_neg hbr]
          exact ih _ _ (Or.inl hm)
      · simp only [absMinLoop, hs, if_false]
        apply ih
        rcases hme with ⟨k, hk⟩ | ⟨hk, i', hi', hav⟩
        · exact Or.inl ⟨k, hk⟩
        · refine Or.inr ⟨hk, i', ?_, hav⟩
          rcases List.mem_cons.mp hi' with rfl | h
          · exact absurd hav (by simpa using hs)
          · exact h

theorem checkWinner_none_not_filled {size : Nat} {board : TBoard} {mc : Nat}
    (h : checkWinner size board mc = none) : mc ≠ size * size := by
  intro hmc
  unfold checkWinner at h
  cases hfind : (tttLines size).find? (fun line => checkLine board line) with
  | none => rw [hfind] at h; simp [hmc] at h
  | some line =>
      rw [hfind] at h
      have hcl : checkLine board line = true := List.find?_some hfind
      cases line with
      | nil => simp [checkLine] at hcl
      | cons j rest =>
          cases hget : board.getD j none with
          | none => rw [checkLine, hget] at hcl; simp at hcl
          | some p =>
              rw [List.getD_eq_getElem?_getD] at hget
              cases p <;> simp [hget] at h

theorem exists_empty_of_not_filled {board : TBoard}
    (h : filledCount board ≠ board.length) :
    ∃ i ∈ List.range board.length, board.getD i none = none := by
  by_contra hno
  push_neg at hno
  apply h
  have hall : ∀ c ∈ board, c.isSome = true := by
    intro c hc
    obtain ⟨i, hi, hig⟩ := List.mem_iff_getElem.mp hc
    have := hno i (List.mem_range.mpr hi)
    rw [List.getD_eq_getElem board none hi, hig] at this
    exact Option.ne_none_iff_isSome.mp this
  unfold filledCount
  rw [List.filter_eq_self.mpr hall]

/-- Tic-Tac-Toe minimax values are always finite integers when the board
has the full `size * size` cells. -/
theorem tttMinimax_num (size : Nat) :
    ∀ (fuel : Nat) (board : TBoard) (depth : Nat) (isMax : Bool) (alpha beta : XInt),
      board.length = size * size →
      ∃ n, tttMinimax size fuel board depth isMax alpha beta = XInt.num n := by
  intro fuel
  induction fuel with
  | zero => intro board depth isMax alpha beta _; exact ⟨0, rfl⟩
  | succ f ih =>
      intro board depth isMax alpha beta hlen
      simp only [tttMinimax]
      cases hw : checkWinner size board (filledCount board) with
      | some out => cases out <;> exact ⟨_, rfl⟩
      | none =>
          have hempty : ∃ i ∈ List.range board.length, board.getD i none = none := by
            apply exists_empty_of_not_filled
            rw [hlen]
            exact checkWinner_none_not_filled hw
          by_cases hcut : size > 3 ∧ depth ≥ 4
          · simp only [hcut, if_true]; exact ⟨0, rfl⟩
          · simp only [hcut, if_false]
            cases isMax with
            | true =>
                simp only [if_true]
                apply absMaxLoop_num
                · intro i a _
                  exact ih (board.set i (some TPlayer.pO)) (depth + 1) false a beta
                    (by rw [List.length_set]; exact hlen)
                · refine Or.inr ⟨rfl, ?_⟩
                  obtain ⟨i, hi, hie⟩ := hempty
                  exact ⟨i, hi, by simpa using hie⟩
            | false =>
                simp only [Bool.false_eq_true, if_false]
                apply absMinLoop_num
                · intro i b _
                  exact ih (board.set i (some TPlayer.pX)) (depth + 1) true alpha b
                    (by rw [List.length_set]; exact hlen)
                · refine Or.inr ⟨rfl, ?_⟩
                  obtain ⟨i, hi, hie⟩ := hempty
                  exact ⟨i, hi, by simpa using hie⟩

/-- The best-move loop of `getAIMove` on a 3x3 grid: tries `'O'` in every
empty cell, evaluates `minimax(copy, 0, false, -Infinity, Infinity)` and
keeps the strictly best value seen so far. -/
def getAIMoveLoop (size fuel : Nat) (board : TBoard) :
    List Nat → Int → XInt → Int × XInt
  | [], bestMove, bestValue => (bestMove, bestValue)
  | i :: rest, bestMove, bestValue =>
      if board.getD i none = none then
        if bestValue < tttMinimax size fuel (board.set i (some TPlayer.pO)) 0 false
            XInt.negInf XInt.posInf then
          getAIMoveLoop size fuel board rest (i : Int)
            (tttMinimax size fuel (board.set i (some TPlayer.pO)) 0 false
              XInt.negInf XInt.posInf)
        else getAIMoveLoop size fuel board rest bestMove bestValue
      else getAIMoveLoop size fuel board rest bestMove bestValue

/-- Outcome reported by `checkWinner` when `p` completes a line. -/
def outcomeOfPlayer : TPlayer → TOutcome
  | TPlayer.pX => TOutcome.winX
  | TPlayer.pO => TOutcome.winO

/-- The first scan of the large-grid heuristic: the first empty cell where
placing `p` makes `checkWinner` report `p` as the winner (`checkWinner` is
invoked with the stale `moveCount` of the board before the trial move, as
in the source). -/
def findImmediateWin (size : Nat) (board : TBoard) (p : TPlayer) : Option Nat :=
  (List.range board.length).find? fun i =>
    board.getD i none = none ∧
    checkWinner size (board.set i (some p)) (filledCount board) =
      some (outcomeOfPlayer p)

/-- The `gridSize > 3` branch of `getAIMove`: win if possible, else block,
else take the center, else a random empty cell (`pickRandom` stands for
the `Math.random()` draw). -/
def getAIMoveHeuristic (size : Nat) (board : TBoard) (pickRandom : Nat) : Int :=
  match findImmediateWin size board TPlayer.pO with
  | some i => (i : Int)
  | none =>
      match findImmediateWin size board TPlayer.pX with
      | some i => (i : Int)
      | none =>
          if board.getD (board.length / 2) none = none then
            ((board.length / 2 : Nat) : Int)
          else
            let emptySpots :=
              (List.range board.length).filter fun i => board.getD i none = none
            ((emptySpots.getD (pickRandom % emptySpots.length) 0 : Nat) : Int)

/-- `TicTacToeGame.getAIMove()`: heuristic path for grids larger than 3,
exhaustive minimax search on the 3x3 grid. -/
def getAIMove (size fuel : Nat) (board : TBoard) (pickRandom : Nat) : Int :=
  if size > 3 then getAIMoveHeuristic size board pickRandom
  else (getAIMoveLoop size fuel board (List.range board.length) (-1) XInt.negInf).1

/-- Characterisation of the best-move loop: it either keeps the incoming
pair (when no tried cell strictly improves on it) or returns the first
empty index attaining the maximal value among the tried cells. -/
theorem getAIMoveLoop_spec (size fuel : Nat) (board : TBoard) :
    ∀ (idxs : List Nat) (bm : Int) (bv : XInt),
      (getAIMoveLoop size fuel board idxs bm bv = (bm, bv) ∧
        ∀ i ∈ idxs, board.getD i none = none →
          tttMinimax size fuel (board.set i (some TPlayer.pO)) 0 false
            XInt.negInf XInt.posInf ≤ bv) ∨
      (∃ r ∈ idxs, board.getD r none = none ∧
        getAIMoveLoop size fuel board idxs bm bv =
          ((r : Int), tttMinimax size fuel (board.set r (some TPlayer.pO)) 0 false
            XInt.negInf XInt.posInf) ∧
        bv < tttMinimax size fuel (board.set r (some TPlayer.pO)) 0 false
          XInt.negInf XInt.posInf ∧
        ∀ i ∈ idxs, board.getD i none = none →
          tttMinimax size fuel (board.set i (some TPlayer.pO)) 0 false
            XInt.negInf XInt.posInf ≤
          tttMinimax size fuel (board.set r (some TPlayer.pO)) 0 false
            XInt.negInf XInt.posInf) := by
  intro idxs
  induction idxs with
  | nil =>
      intro bm bv
      exact Or.inl ⟨rfl, by simp⟩
  | cons i rest ih =>
      intro bm bv
      by_cases he : board.getD i none = none
      · by_cases himp : bv < tttMinimax size fuel (board.set i (some TPlayer.pO)) 0 false
            XInt.negInf XInt.posInf
        · have hunf : getAIMoveLoop size fuel board (i :: rest) bm bv =
              getAIMoveLoop size fuel board rest (i : Int)
                (tttMinimax size fuel (board.set i (some TPlayer.pO)) 0 false
                  XInt.negInf XInt.posInf) := by
            simp only [getAIMoveLoop, he, himp, if_true]
          rcases ih (i : Int) (tttMinimax size fuel (board.set i (some TPlayer.pO)) 0 false
              XInt.negInf XInt.posInf) with ⟨heq, hbound⟩ | ⟨r, hr, hre, heq, hlt, hbound⟩
          · refine Or.inr ⟨i, List.mem_cons_self i rest, he, hunf.trans heq, himp, ?_⟩
            intro j hj hje
            rcases List.mem_cons.mp hj with rfl | hj'
            · exact le_refl _
            · exact hbound j hj' hje
          · refine Or.inr ⟨r, List.mem_cons_of_mem i hr, hre, hunf.trans heq,
              lt_trans himp hlt, ?_⟩
            intro j hj hje
            rcases List.mem_cons.mp hj with rfl | hj'
            · exact le_of_lt hlt
            · exact hbound j hj' hje
        · have hunf : getAIMoveLoop size fuel board (i :: rest) bm bv =
              getAIMoveLoop size fuel board rest bm bv := by
            simp only [getAIMoveLoop, he, himp, if_true, if_false]
          rcases ih bm bv with ⟨heq, hbound⟩ | ⟨r, hr, hre, heq, hlt, hbound⟩
          · refine Or.inl ⟨hunf.trans heq, ?_⟩
            intro j hj hje
            rcases List.mem_cons.mp hj with rfl | hj'
            · exact not_lt.mp himp
            · exact hbound j hj' hje
          · refine Or.inr ⟨r, List.mem_cons_of_mem i hr, hre, hunf.trans heq, hlt, ?_⟩
            intro j hj hje
            rcases List.mem_cons.mp hj with rfl | hj'
            · exact le_trans (not_lt.mp himp) (le_of_lt hlt)
            · exact hbound j hj' hje
      · have hunf : getAIMoveLoop size fuel board (i :: rest) bm bv =
            getAIMoveLoop size fuel board rest bm bv := by
          simp only [getAIMoveLoop, he, if_false]
        rcases ih bm bv with ⟨heq, hbound⟩ | ⟨r, hr, hre, heq, hlt, hbound⟩
        · refine Or.inl ⟨hunf.trans heq, ?_⟩
          intro j hj hje
          rcases List.mem_cons.mp hj with rfl | hj'
          · exact absurd hje he
          · exact hbound j hj' hje
        · refine Or.inr ⟨r, List.mem_cons_of_mem i hr, hre, hunf.trans heq, hlt, ?_⟩
          intro j hj hje
          rcases List.mem_cons.mp hj with rfl | hj'
          · exact absurd hje he
          · exact hbound j hj' hje

/-- C3 (amended): on the 3x3 grid, `getAIMove` returns an empty cell whose
minimax value for `'O'` is maximal among all empty cells.  (On the 5x5
grid the claim fails: `getAIMove` uses a win/block/center heuristic there,
see the counterexample.) -/
theorem C3_getAIMove_argmax_3x3 (fuel : Nat) (board : TBoard) (pickRandom : Nat)
    (hlen : board.length = 9)
    (hempty : ∃ i : Nat, i < 9 ∧ board.getD i none = none)
    (hnowin : checkWinner 3 board (filledCount board) = none) :
    ∃ r : Nat, r < 9 ∧ getAIMove 3 fuel board pickRandom = (r : Int) ∧
      board.getD r none = none ∧
      ∀ j, j < 9 → board.getD j none = none →
        tttMinimax 3 fuel (board.set j (some TPlayer.pO)) 0 false
          XInt.negInf XInt.posInf ≤
        tttMinimax 3 fuel (board.set r (some TPlayer.pO)) 0 false
          XInt.negInf XInt.posInf := by
  have h3 : ¬ ((3 : Nat) > 3) := by omega
  rcases getAIMoveLoop_spec 3 fuel board (List.range board.length) (-1) XInt.negInf with
    ⟨heq, hbound⟩ | ⟨r, hr, hre, heq, hlt, hbound⟩
  · exfalso
    obtain ⟨i0, hi0, hi0e⟩ := hempty
    obtain ⟨n, hn⟩ := tttMinimax_num 3 fuel (board.set i0 (some TPlayer.pO)) 0 false
      XInt.negInf XInt.posInf (by rw [List.length_set, hlen])
    have hb := hbound i0 (by rw [hlen]; exact List.mem_range.mpr hi0) hi0e
    rw [hn] at hb
    have := XInt.le_negInf_iff.mp hb
    simp at this
  · refine ⟨r, ?_, ?_, hre, ?_⟩
    · rw [hlen] at hr; exact List.mem_range.mp hr
    · unfold getAIMove
      rw [if_neg h3, heq]
    · intro j hj hje
      exact hbound j (by rw [hlen]; exact List.mem_range.mpr hj) hje

/-- A 3x3 position used as concrete input for the C3 theorem: X threatens
cell 2, O can win at cell 5. -/
def c3WitnessBoard : TBoard :=
  [some TPlayer.pX, some TPlayer.pX, none,
   some TPlayer.pO, some TPlayer.pO, none,
   none, none, none]

/-- Witness for the amended C3 on a concrete 3x3 position. -/
theorem C3_getAIMove_argmax_3x3_witness :
    c3WitnessBoard.length = 9 ∧
    (∃ i : Nat, i < 9 ∧ c3WitnessBoard.getD i none = none) ∧
    checkWinner 3 c3WitnessBoard (filledCount c3WitnessBoard) = none ∧
    (∃ r : Nat, r < 9 ∧ getAIMove 3 10 c3WitnessBoard 0 = (r : Int) ∧
      c3WitnessBoard.getD r none = none ∧
      ∀ j, j < 9 → c3WitnessBoard.getD j none = none →
        tttMinimax 3 10 (c3WitnessBoard.set j (some TPlayer.pO)) 0 false
          XInt.negInf XInt.posInf ≤
        tttMinimax 3 10 (c3WitnessBoard.set r (some TPlayer.pO)) 0 false
          XInt.negInf XInt.posInf) :=
  ⟨by decide, by decide, by decide,
    C3_getAIMove_argmax_3x3 10 c3WitnessBoard 0 (by decide) (by decide) (by decide)⟩

/-- A 5x5 position on which the heuristic path of `getAIMove` is not
minimax-optimal: the only empties are cells 12 (center), 18, 19, 24;
X to follow has a double threat through cell 19. -/
def c3CounterBoard : TBoard :=
  [some TPlayer.pO, some TPlayer.pX, some TPlayer.pO, some TPlayer.pO, some TPlayer.pX,
   some TPlayer.pX, some TPlayer.pO, some TPlayer.pX, some TPlayer.pO, some TPlayer.pX,
   some TPlayer.pO, some TPlayer.pX, none, some TPlayer.pO, some TPlayer.pX,
   some TPlayer.pX, some TPlayer.pX, some TPlayer.pX, none, none,
   some TPlayer.pO, some TPlayer.pO, some TPlayer.pO, some TPlayer.pX, none]

/-- Counterexample to C3 as stated: on a 5x5 board with no winner and
empty cells, `getAIMove` returns the center (cell 12), whose minimax
value for `'O'` is `-7`, strictly worse than the value `0` of the empty
cell 18 - so the returned move is not a minimax argmax. -/
theorem C3_counterexample :
    c3CounterBoard.length = 25 ∧
    checkWinner 5 c3CounterBoard (filledCount c3CounterBoard) = none ∧
    c3CounterBoard.getD 12 none = none ∧
    c3CounterBoard.getD 18 none = none ∧
    getAIMove 5 26 c3CounterBoard 0 = 12 ∧
    tttMinimax 5 26 (c3CounterBoard.set 12 (some TPlayer.pO)) 0 false
      XInt.negInf XInt.posInf = XInt.num (-7) ∧
    tttMinimax 5 26 (c3CounterBoard.set 18 (some TPlayer.pO)) 0 false
      XInt.negInf XInt.posInf = XInt.num 0 ∧
    XInt.num (-7) < XInt.num 0 :=
  ⟨by decide, by decide, by decide, by decide, by decide, by decide, by decide, by decide⟩

/-! ## Sudoku (src/unnamed blockoduko source, class SudokuBoard) -/

namespace Sudoku

/-- A Sudoku board: 9 rows of 9 cells, `0` meaning empty. -/
abbrev SBoard := List (List Nat)

/-- `_emptyBoard()`. -/
def emptyBoard : SBoard := List.replicate 9 (List.replicate 9 0)

/-- Reading `board[r][c]` (0 outside the grid). -/
def cell (b : SBoard) (r c : Nat) : Nat := (b.getD r []).getD c 0

/-- Writing `board[r][c] = v`. -/
def setCell (b : SBoard) (r c v : Nat) : SBoard :=
  b.set r ((b.getD r []).set c v)

/-- `_canPlace(board, r, c, num)`: `num` appears nowhere in row `r`,
column `c`, or the 3x3 box of `(r, c)`. -/
def canPlace (b : SBoard) (r c num : Nat) : Bool :=
  ((List.range 9).all fun i => cell b r i ≠ num) &&
  ((List.range 9).all fun i => cell b i c ≠ num) &&
  ((List.range 3).all fun rr => (List.range 3).all fun cc =>
    cell b (r / 3 * 3 + rr) (c / 3 * 3 + cc) ≠ num)

/-- The row-major scan for the first `0` cell at the head of
`_solveBacktrack`. -/
def firstZero (b : SBoard) : Option (Nat × Nat) :=
  ((List.range 81).find? fun idx => cell b (idx / 9) (idx % 9) = 0).map
    fun idx => (idx / 9, idx % 9)

/-- The inner candidate loop of `_solveBacktrack`: try the shuffled
digits in order; on a placement whose recursive solve fails, the cell is
reset (purely: the original board is reused).  `next` is the recursive
solver at one fuel less, `k` the randomness counter. -/
def tryNums (next : SBoard → Nat → Option SBoard × Nat) (b : SBoard) (r c : Nat) :
    List Nat → Nat → Option SBoard × Nat
  | [], k => (none, k)
  | n :: rest, k =>
      if canPlace b r c n then
        match next (setCell b r c n) k with
        | (some solved, k2) => (some solved, k2)
        | (none, k2) => tryNums next b r c rest k2
      else tryNums next b r c rest k

/-- `_solveBacktrack(board)`.  `rnd k` is the shuffled digit list produced
by the `k`-th call of the cell loop (the JS shuffles `[1..9]` afresh at
every visited empty cell); `fuel` bounds the recursion depth. -/
def solveBacktrack (rnd : Nat → List Nat) : Nat → SBoard → Nat → Option SBoard × Nat
  | 0, _, k => (none, k)
  | fuel + 1, b, k =>
      match firstZero b with
      | none => (some b, k)
      | some (r, c) => tryNums (solveBacktrack rnd fuel) b r c (rnd k) (k + 1)

/-- `generateSolvedBoard()`: start from the empty board, fill row 0 with
the shuffled `firstRow`, and backtrack-solve.  The JS retries the whole
procedure on failure with fresh randomness, so every board it ever
returns comes from one successful attempt, modelled by the `some` case. -/
def generateSolvedBoard (firstRow : List Nat) (rnd : Nat → List Nat) (fuel : Nat) :
    Option SBoard :=
  (solveBacktrack rnd fuel (emptyBoard.set 0 firstRow) 0).1

/-- Duplicate test mirroring the seen-set pass of `isValidBoard`: true
iff no value occurs twice in the list. -/
def hasNoDup : List Nat → Bool
  | [] => true
  | x :: xs => !(xs.contains x) && hasNoDup xs

/-- The non-zero values of row `r`. -/
def rowVals (b : SBoard) (r : Nat) : List Nat :=
  ((List.range 9).map fun c => cell b r c).filter fun v => v ≠ 0

/-- The non-zero values of column `c`. -/
def colVals (b : SBoard) (c : Nat) : List Nat :=
  ((List.range 9).map fun r => cell b r c).filter fun v => v ≠ 0

/-- The non-zero values of box `i` (row block `i / 3`, column block
`i % 3`), in the row-major order of the seen-set pass. -/
def boxVals (b : SBoard) (i : Nat) : List Nat :=
  ((List.range 9).map fun t => cell b (i / 3 * 3 + t / 3) (i % 3 * 3 + t % 3)).filter
    fun v => v ≠ 0

/-- `isValidBoard(board)`: no non-zero value repeats in any row, column,
or 3x3 box (the seen-set pass of the source returns false exactly on such
a repeat). -/
def isValidBoard (b : SBoard) : Bool :=
  ((List.range 9).all fun r => hasNoDup (rowVals b r)) &&
  ((List.range 9).all fun c => hasNoDup (colVals b c)) &&
  ((List.range 9).all fun i => hasNoDup (boxVals b i))

/-- Every cell of the 9x9 grid is non-zero. -/
def isComplete (b : SBoard) : Bool :=
  (List.range 9).all fun r => (List.range 9).all fun c => cell b r c ≠ 0

/-- Structural well-formedness: 9 rows of 9 cells. -/
def WF (b : SBoard) : Prop := b.length = 9 ∧ ∀ row ∈ b, row.length = 9

/-- All cells are at most 9. -/
def Bounded (b : SBoard) : Prop := ∀ r < 9, ∀ c < 9, cell b r c ≤ 9

/-- Invariant carried through the backtracking solver. -/
def Good (b : SBoard) : Prop := WF b ∧ isValidBoard b = true ∧ Bounded b

end Sudoku

namespace Sudoku

theorem hasNoDup_iff {l : List Nat} : hasNoDup l = true ↔ l.Nodup := by
  induction l with
  | nil => simp [hasNoDup]
  | cons x xs ih =>
      simp only [hasNoDup, Bool.and_eq_true, Bool.not_eq_true', List.nodup_cons, ih]
      constructor
      · rintro ⟨hc, hn⟩
        exact ⟨fun hm => by simp [hm] at hc, hn⟩
      · rintro ⟨hm, hn⟩
        exact ⟨by simp [hm], hn⟩

/-- Injectivity of a unit-reading function on its non-zero positions. -/
def UnitInj (f : Nat → Nat) : Prop :=
  ∀ i j, i < j → j < 9 → f i ≠ 0 → f j ≠ 0 → f i ≠ f j

theorem hasNoDup_unit_iff (f : Nat → Nat) :
    hasNoDup (((List.range 9).map f).filter fun v => v ≠ 0) = true ↔ UnitInj f := by
  rw [hasNoDup_iff, List.Nodup, List.pairwise_filter, List.pairwise_map,
    List.pairwise_iff_get]
  constructor
  · intro h i j hij hj hfi hfj
    have := h ⟨i, by simpa using lt_trans hij hj⟩ ⟨j, by simpa using hj⟩ (by simpa using hij)
    simpa [hfi, hfj] using this
  · intro h i j hij
    have hi9 : (i : Nat) < 9 := by simpa using i.isLt
    have hj9 : (j : Nat) < 9 := by simpa using j.isLt
    intro hfi hfj
    have := h i j (by simpa using hij) hj9
    simp only [List.get_eq_getElem, List.getElem_range] at hfi hfj ⊢
    exact this (by simpa using hfi) (by simpa using hfj)

theorem isValidBoard_iff {b : SBoard} :
    isValidBoard b = true ↔
      (∀ r < 9, UnitInj fun c => cell b r c) ∧
      (∀ c < 9, UnitInj fun r => cell b r c) ∧
      (∀ i < 9, UnitInj fun t => cell b (i / 3 * 3 + t / 3) (i % 3 * 3 + t % 3)) := by
  unfold isValidBoard rowVals colVals boxVals
  simp only [Bool.and_eq_true, List.all_eq_true, List.mem_range]
  constructor
  · rintro ⟨⟨h1, h2⟩, h3⟩
    exact ⟨fun r hr => (hasNoDup_unit_iff _).mp (h1 r hr),
      fun c hc => (hasNoDup_unit_iff _).mp (h2 c hc),
      fun i hi => (hasNoDup_unit_iff _).mp (h3 i hi)⟩
  · rintro ⟨h1, h2, h3⟩
    exact ⟨⟨fun r hr => (hasNoDup_unit_iff _).mpr (h1 r hr),
      fun c hc => (hasNoDup_unit_iff _).mpr (h2 c hc)⟩,
      fun i hi => (hasNoDup_unit_iff _).mpr (h3 i hi)⟩

theorem WF.row_length {b : SBoard} (hwf : WF b) {r : Nat} (hr : r < 9) :
    (b.getD r []).length = 9 := by
  obtain ⟨hlen, hrows⟩ := hwf
  rw [List.getD_eq_getElem _ _ (by omega)]
  exact hrows _ (List.getElem_mem _)

theorem WF_setCell {b : SBoard} (hwf : WF b) (r c v : Nat) : WF (setCell b r c v) := by
  obtain ⟨hlen, hrows⟩ := hwf
  by_cases hr : r < 9
  · refine ⟨by rw [setCell, List.length_set]; exact hlen, ?_⟩
    intro row hrow
    rw [setCell] at hrow
    rcases List.mem_or_eq_of_mem_set hrow with h | h
    · exact hrows row h
    · subst h
      rw [List.length_set]
      exact WF.row_length ⟨hlen, hrows⟩ hr
  · rw [setCell, List.set_eq_of_length_le (by omega)]
    exact ⟨hlen, hrows⟩

theorem cell_setCell {b : SBoard} (hwf : WF b) (r c v r' c' : Nat)
    (hr' : r' < 9) (hc' : c' < 9) :
    cell (setCell b r c v) r' c' = if r' = r ∧ c' = c then v else cell b r' c' := by
  have hlen : b.length = 9 := hwf.1
  unfold cell setCell
  by_cases hrr : r' = r
  · subst hrr
    have hrowlen : (b.getD r' []).length = 9 := hwf.row_length hr'
    have hrowEq : (List.set b r' ((b.getD r' []).set c v)).getD r' [] =
        (b.getD r' []).set c v := by
      rw [List.getD_eq_getElem _ _ (by rw [List.length_set]; omega)]
      exact List.getElem_set_self (by rw [List.length_set]; omega)
    rw [hrowEq]
    by_cases hcc : c' = c
    · subst hcc
      rw [if_pos ⟨rfl, rfl⟩,
        List.getD_eq_getElem _ _ (by rw [List.length_set]; omega)]
      exact List.getElem_set_self (by rw [List.length_set]; omega)
    · rw [if_neg (fun h => hcc h.2),
        List.getD_eq_getElem _ _ (by rw [List.length_set]; omega),
        List.getElem_set_ne (fun h => hcc h.symm) (by rw [List.length_set]; omega)]
      exact (List.getD_eq_getElem _ _ (by omega)).symm
  · rw [if_neg (fun h => hrr h.1)]
    by_cases hr9 : r < 9
    · have hrowEq : (List.set b r ((b.getD r []).set c v)).getD r' [] =
          b.getD r' [] := by
        rw [List.getD_eq_getElem _ _ (by rw [List.length_set]; omega),
          List.getElem_set_ne (fun h => hrr h.symm) (by rw [List.length_set]; omega)]
        exact (List.getD_eq_getElem _ _ (by omega)).symm
      rw [hrowEq]
    · rw [List.set_eq_of_length_le (by omega)]

theorem canPlace_spec {b : SBoard} {r c n : Nat} (h : canPlace b r c n = true) :
    (∀ i < 9, cell b r i ≠ n) ∧ (∀ i < 9, cell b i c ≠ n) ∧
    (∀ rr < 3, ∀ cc < 3, cell b (r / 3 * 3 + rr) (c / 3 * 3 + cc) ≠ n) := by
  simp only [canPlace, Bool.and_eq_true, List.all_eq_true, List.mem_range,
    decide_eq_true_eq] at h
  exact ⟨h.1.1, h.1.2, h.2⟩

theorem Bounded_setCell {b : SBoard} (hwf : WF b) (hb : Bounded b) {r c n : Nat}
    (hn : n ≤ 9) : Bounded (setCell b r c n) := by
  intro r' hr' c' hc'
  rw [cell_setCell hwf r c n r' c' hr' hc']
  by_cases h : r' = r ∧ c' = c
  · rw [if_pos h]; exact hn
  · rw [if_neg h]; exact hb r' hr' c' hc'

/-- Placing a `canPlace`-approved digit in an empty cell keeps the board
valid: the heart of the backtracking generator invariant. -/
theorem isValidBoard_setCell {b : SBoard} {r c n : Nat} (hwf : WF b)
    (hr : r < 9) (hc : c < 9) (hn : n ≠ 0) (hcp : canPlace b r c n = true)
    (hv : isValidBoard b = true) : isValidBoard (setCell b r c n) = true := by
  obtain ⟨hcpr, hcpc, hcpb⟩ := canPlace_spec hcp
  rw [isValidBoard_iff] at hv ⊢
  obtain ⟨hrow, hcol, hbox⟩ := hv
  have hcell := cell_setCell hwf r c n
  refine ⟨?_, ?_, ?_⟩
  · intro r' hr' i j hij hj hfi hfj
    dsimp only at hfi hfj ⊢
    have hi9 : i < 9 := lt_trans hij hj
    rw [hcell r' i hr' hi9] at hfi ⊢
    rw [hcell r' j hr' hj] at hfj ⊢
    by_cases hri : r' = r ∧ i = c
    · rw [if_pos hri] at hfi ⊢
      have hrj : ¬(r' = r ∧ j = c) := by omega
      rw [if_neg hrj] at hfj ⊢
      rw [hri.1]
      exact (hcpr j hj).symm
    · rw [if_neg hri] at hfi ⊢
      by_cases hrj : r' = r ∧ j = c
      · rw [if_pos hrj] at hfj ⊢
        rw [hrj.1]
        exact hcpr i hi9
      · rw [if_neg hrj] at hfj ⊢
        exact hrow r' hr' i j hij hj hfi hfj
  · intro c' hc' i j hij hj hfi hfj
    dsimp only at hfi hfj ⊢
    have hi9 : i < 9 := lt_trans hij hj
    rw [hcell i c' hi9 hc'] at hfi ⊢
    rw [hcell j c' hj hc'] at hfj ⊢
    by_cases hic : i = r ∧ c' = c
    · rw [if_pos hic] at hfi ⊢
      have hjc : ¬(j = r ∧ c' = c) := by omega
      rw [if_neg hjc] at hfj ⊢
      rw [hic.2]
      exact (hcpc j hj).symm
    · rw [if_neg hic] at hfi ⊢
      by_cases hjc : j = r ∧ c' = c
      · rw [if_pos hjc] at hfj ⊢
        rw [hjc.2]
        exact hcpc i hi9
      · rw [if_neg hjc] at hfj ⊢
        exact hcol c' hc' i j hij hj hfi hfj
  · intro bi hbi i j hij hj hfi hfj
    dsimp only at hfi hfj ⊢
    have hi9 : i < 9 := lt_trans hij hj
    have hri : bi / 3 * 3 + i / 3 < 9 := by omega
    have hci : bi % 3 * 3 + i % 3 < 9 := by omega
    have hrj : bi / 3 * 3 + j / 3 < 9 := by omega
    have hcj : bi % 3 * 3 + j % 3 < 9 := by omega
    rw [hcell _ _ hri hci] at hfi ⊢
    rw [hcell _ _ hrj hcj] at hfj ⊢
    by_cases hic : bi / 3 * 3 + i / 3 = r ∧ bi % 3 * 3 + i % 3 = c
    · rw [if_pos hic] at hfi ⊢
      have hjc : ¬(bi / 3 * 3 + j / 3 = r ∧ bi % 3 * 3 + j % 3 = c) := by omega
      rw [if_neg hjc] at hfj ⊢
      have hbase_r : bi / 3 * 3 = r / 3 * 3 := by omega
      have hbase_c : bi % 3 * 3 = c / 3 * 3 := by omega
      have hcb := hcpb (j / 3) (by omega) (j % 3) (by omega)
      rw [← hbase_r, ← hbase_c] at hcb
      exact hcb.symm
    · rw [if_neg hic] at hfi ⊢
      by_cases hjc : bi / 3 * 3 + j / 3 = r ∧ bi % 3 * 3 + j % 3 = c
      · rw [if_pos hjc] at hfj ⊢
        have hbase_r : bi / 3 * 3 = r / 3 * 3 := by omega
        have hbase_c : bi % 3 * 3 = c / 3 * 3 := by omega
        have hcb := hcpb (i / 3) (by omega) (i % 3) (by omega)
        rw [← hbase_r, ← hbase_c] at hcb
        exact hcb
      · rw [if_neg hjc] at hfj ⊢
        exact hbox bi hbi i j hij hj hfi hfj

theorem firstZero_none {b : SBoard} (h : firstZero b = none) :
    ∀ r < 9, ∀ c < 9, cell b r c ≠ 0 := by
  intro r hr c hc
  unfold firstZero at h
  rw [Option.map_eq_none'] at h
  have hmem : r * 9 + c ∈ List.range 81 := by
    rw [List.mem_range]; omega
  have hfind := List.find?_eq_none.mp h (r * 9 + c) hmem
  simp only [decide_eq_true_eq] at hfind
  have hdiv : (r * 9 + c) / 9 = r := by omega
  have hmod : (r * 9 + c) % 9 = c := by omega
  rw [hdiv, hmod] at hfind
  exact hfind

theorem firstZero_some {b : SBoard} {r c : Nat} (h : firstZero b = some (r, c)) :
    r < 9 ∧ c < 9 ∧ cell b r c = 0 := by
  unfold firstZero at h
  cases hf : (List.range 81).find? (fun idx => cell b (idx / 9) (idx % 9) = 0) with
  | none => rw [hf] at h; simp at h
  | some idx =>
      rw [hf] at h
      simp only [Option.map_some', Option.some.injEq, Prod.mk.injEq] at h
      obtain ⟨h1, h2⟩ := h
      have hmem := List.mem_range.mp (List.mem_of_find?_eq_some hf)
      have hp := List.find?_some hf
      simp only [decide_eq_true_eq] at hp
      subst h1
      subst h2
      exact ⟨by omega, by omega, hp⟩

theorem isComplete_of_firstZero_none {b : SBoard} (h : firstZero b = none) :
    isComplete b = true := by
  simp only [isComplete, List.all_eq_true, List.mem_range, decide_eq_true_eq]
  intro r hr c hc
  exact firstZero_none h r hr c hc

theorem tryNums_sound (next : SBoard → Nat → Option SBoard × Nat) (b : SBoard)
    (r c : Nat) (hr : r < 9) (hc : c < 9) (hgood : Good b)
    (hnext : ∀ b2 k b' k2, Good b2 → next b2 k = (some b', k2) →
      Good b' ∧ isComplete b' = true) :
    ∀ (nums : List Nat) (k : Nat) (b' : SBoard) (k2 : Nat),
      (∀ n ∈ nums, 1 ≤ n ∧ n ≤ 9) →
      tryNums next b r c nums k = (some b', k2) →
      Good b' ∧ isComplete b' = true := by
  intro nums
  induction nums with
  | nil =>
      intro k b' k2 _ h
      simp [tryNums] at h
  | cons n rest ih =>
      intro k b' k2 hrange h
      have hn := hrange n (List.mem_cons_self _ _)
      by_cases hcp : canPlace b r c n = true
      · rw [tryNums, if_pos hcp] at h
        cases hnx : next (setCell b r c n) k with
        | mk o k3 =>
            cases o with
            | some solved =>
                rw [hnx] at h
                simp only [Option.some.injEq, Prod.mk.injEq] at h
                obtain ⟨hb, hk⟩ := h
                have hgood2 : Good (setCell b r c n) :=
                  ⟨WF_setCell hgood.1 r c n,
                   isValidBoard_setCell hgood.1 hr hc (by omega) hcp hgood.2.1,
                   Bounded_setCell hgood.1 hgood.2.2 (by omega)⟩
                have := hnext _ _ _ _ hgood2 hnx
                exact hb ▸ this
            | none =>
                rw [hnx] at h
                exact ih k3 b' k2 (fun m hm => hrange m (List.mem_cons_of_mem _ hm)) h
      · rw [tryNums, if_neg hcp] at h
        exact ih k b' k2 (fun m hm => hrange m (List.mem_cons_of_mem _ hm)) h

/-- Soundness of the backtracking solver: from a well-formed valid board
it only ever returns well-formed, valid, complete boards whose cells stay
in range. -/
theorem solveBacktrack_sound (rnd : Nat → List Nat)
    (hrnd : ∀ k, ∀ n ∈ rnd k, 1 ≤ n ∧ n ≤ 9) :
    ∀ (fuel : Nat) (b : SBoard) (k : Nat) (b' : SBoard) (k2 : Nat), Good b →
      solveBacktrack rnd fuel b k = (some b', k2) →
      Good b' ∧ isComplete b' = true := by
  intro fuel
  induction fuel with
  | zero =>
      intro b k b' k2 _ h
      simp [solveBacktrack] at h
  | succ f ih =>
      intro b k b' k2 hgood h
      rw [solveBacktrack] at h
      cases hfz : firstZero b with
      | none =>
          rw [hfz] at h
          simp only [Option.some.injEq, Prod.mk.injEq] at h
          obtain ⟨hb, _⟩ := h
          exact hb ▸ ⟨hgood, isComplete_of_firstZero_none hfz⟩
      | some rc =>
          obtain ⟨r, c⟩ := rc
          rw [hfz] at h
          obtain ⟨hr9, hc9, _⟩ := firstZero_some hfz
          exact tryNums_sound _ b r c hr9 hc9 hgood
            (fun b2 k' b'' k2' hg hnx => ih b2 k' b'' k2' hg hnx)
            (rnd k) (k + 1) b' k2 (hrnd k) h

/-- A unit whose nine values are pairwise distinct, non-zero and at most
nine contains every digit 1..9 exactly once. -/
theorem unit_count_eq_one (f : Nat → Nat) (hinj : UnitInj f)
    (hnz : ∀ i < 9, f i ≠ 0) (hbd : ∀ i < 9, f i ≤ 9) :
    ∀ d, 1 ≤ d → d ≤ 9 → ((List.range 9).map f).count d = 1 := by
  have hnodup : ((List.range 9).map f).Nodup := by
    apply List.Nodup.map_on _ (List.nodup_range 9)
    intro x hx y hy hxy
    rw [List.mem_range] at hx hy
    by_contra hne
    rcases Nat.lt_or_ge x y with hlt | hge
    · exact hinj x y hlt hy (hnz x hx) (hnz y hy) hxy
    · have hlt : y < x := by omega
      exact hinj y x hlt hx (hnz y hy) (hnz x hx) hxy.symm
  have hsub : ((List.range 9).map f) ⊆ (List.range 9).map (· + 1) := by
    intro v hv
    rw [List.mem_map] at hv ⊢
    obtain ⟨i, hi, rfl⟩ := hv
    rw [List.mem_range] at hi
    exact ⟨f i - 1, by rw [List.mem_range]; have := hbd i hi; have := hnz i hi; omega,
      by have := hnz i hi; omega⟩
  have hperm : ((List.range 9).map f).Perm ((List.range 9).map (· + 1)) :=
    List.Subperm.perm_of_length_le (List.subperm_of_subset hnodup hsub) (by simp)
  intro d hd1 hd9
  rw [hperm.count_eq]
  apply List.count_eq_one_of_mem
  · exact List.Nodup.map (fun a b h => by omega) (List.nodup_range 9)
  · rw [List.mem_map]
    exact ⟨d - 1, by rw [List.mem_range]; omega, by omega⟩

theorem getD_replicate_zero (c : Nat) : (List.replicate 9 (0 : Nat)).getD c 0 = 0 := by
  rcases Nat.lt_or_ge c 9 with h | h
  · rw [List.getD_eq_getElem _ _ (by simpa using h)]
    exact List.getElem_replicate _ (by simpa using h)
  · rw [List.getD_eq_default _ _ (by simpa using h)]

/-- Reading the initial board of `generateSolvedBoard`: row 0 holds the
shuffled first row, all other cells are 0. -/
theorem cell_initialBoard (firstRow : List Nat) (r c : Nat) (hr : r < 9) :
    cell (emptyBoard.set 0 firstRow) r c =
      if r = 0 then firstRow.getD c 0 else 0 := by
  unfold cell emptyBoard
  by_cases hr0 : r = 0
  · subst hr0
    rw [if_pos rfl]
    have hrow : (List.set (List.replicate 9 (List.replicate 9 0)) 0 firstRow).getD 0 [] =
        firstRow := by
      rw [List.getD_eq_getElem _ _ (by rw [List.length_set, List.length_replicate]; omega)]
      exact List.getElem_set_self (by rw [List.length_set, List.length_replicate]; omega)
    rw [hrow]
  · rw [if_neg hr0]
    have hrow : (List.set (List.replicate 9 (List.replicate 9 0)) 0 firstRow).getD r [] =
        List.replicate 9 0 := by
      rw [List.getD_eq_getElem _ _ (by rw [List.length_set, List.length_replicate]; omega),
        List.getElem_set_ne (fun h => hr0 h.symm)
          (by rw [List.length_set, List.length_replicate]; omega)]
      exact List.getElem_replicate _ (by rw [List.length_replicate]; omega)
    rw [hrow]
    exact getD_replicate_zero c

/-- The starting board of `generateSolvedBoard` is well-formed, valid and
bounded when the first row is a permutation of 1..9. -/
theorem initial_good (firstRow : List Nat)
    (hfr : firstRow.Perm ((List.range 9).map (· + 1))) :
    Good (emptyBoard.set 0 firstRow) := by
  have hlen : firstRow.length = 9 := by
    have := hfr.length_eq
    simpa using this
  have hnodup : firstRow.Nodup :=
    hfr.nodup_iff.mpr (List.Nodup.map (fun a b h => by omega) (List.nodup_range 9))
  have hmem : ∀ v ∈ firstRow, 1 ≤ v ∧ v ≤ 9 := by
    intro v hv
    have := hfr.mem_iff.mp hv
    rw [List.mem_map] at this
    obtain ⟨i, hi, rfl⟩ := this
    rw [List.mem_range] at hi
    omega
  have hget : ∀ i < 9, 1 ≤ firstRow.getD i 0 ∧ firstRow.getD i 0 ≤ 9 := by
    intro i hi
    have hlt : i < firstRow.length := by omega
    rw [List.getD_eq_getElem _ _ hlt]
    exact hmem _ (List.getElem_mem hlt)
  have hgetne : ∀ i j, i < j → j < 9 → firstRow.getD i 0 ≠ firstRow.getD j 0 := by
    intro i j hij hj
    have hi : i < firstRow.length := by omega
    have hjl : j < firstRow.length := by omega
    rw [List.getD_eq_getElem _ _ hi, List.getD_eq_getElem _ _ hjl]
    intro heq
    have := (List.Nodup.getElem_inj_iff hnodup).mp heq
    omega
  refine ⟨⟨by rw [List.length_set]; simp [emptyBoard], ?_⟩, ?_, ?_⟩
  · intro row hrow
    rw [emptyBoard] at hrow
    rcases List.mem_or_eq_of_mem_set hrow with h | h
    · rw [List.eq_of_mem_replicate h]; simp
    · rw [h]; exact hlen
  · rw [isValidBoard_iff]
    refine ⟨?_, ?_, ?_⟩
    · intro r hr i j hij hj hfi hfj
      dsimp only at hfi hfj ⊢
      rw [cell_initialBoard firstRow r i hr] at hfi ⊢
      rw [cell_initialBoard firstRow r j hr] at hfj ⊢
      by_cases hr0 : r = 0
      · simp only [if_pos hr0] at hfi hfj ⊢
        exact hgetne i j hij hj
      · rw [if_neg hr0] at hfi
        exact absurd rfl hfi
    · intro c hc i j hij hj hfi hfj
      dsimp only at hfi hfj ⊢
      rw [cell_initialBoard firstRow i c (lt_trans hij hj)] at hfi ⊢
      rw [cell_initialBoard firstRow j c hj] at hfj ⊢
      by_cases hj0 : j = 0
      · omega
      · rw [if_neg hj0] at hfj
        exact absurd rfl hfj
    · intro bi hbi i j hij hj hfi hfj
      dsimp only at hfi hfj ⊢
      have hi9 : i < 9 := lt_trans hij hj
      rw [cell_initialBoard firstRow _ _ (by omega : bi / 3 * 3 + i / 3 < 9)] at hfi ⊢
      rw [cell_initialBoard firstRow _ _ (by omega : bi / 3 * 3 + j / 3 < 9)] at hfj ⊢
      by_cases hiz : bi / 3 * 3 + i / 3 = 0
      · rw [if_pos hiz] at hfi ⊢
        by_cases hjz : bi / 3 * 3 + j / 3 = 0
        · rw [if_pos hjz] at hfj ⊢
          exact hgetne (bi % 3 * 3 + i % 3) (bi % 3 * 3 + j % 3) (by omega) (by omega)
        · rw [if_neg hjz] at hfj
          exact absurd rfl hfj
      · rw [if_neg hiz] at hfi
        exact absurd rfl hfi
  · intro r hr c hc
    rw [cell_initialBoard firstRow r c hr]
    by_cases hr0 : r = 0
    · rw [if_pos hr0]
      exact (hget c hc).2
    · rw [if_neg hr0]; omega

end Sudoku

/-- C5: every board returned by `generateSolvedBoard` is a complete valid
Sudoku grid: all cells hold digits 1..9, `isValidBoard` holds, no cell is
0, and every row, column, and 3x3 box contains each digit exactly once. -/
theorem C5_generateSolvedBoard_complete_valid
    (firstRow : List Nat) (rnd : Nat → List Nat) (fuel : Nat) (b : Sudoku.SBoard)
    (hfr : firstRow.Perm ((List.range 9).map (· + 1)))
    (hrnd : ∀ k, ∀ n ∈ rnd k, 1 ≤ n ∧ n ≤ 9)
    (hgen : Sudoku.generateSolvedBoard firstRow rnd fuel = some b) :
    Sudoku.isValidBoard b = true ∧
    (∀ r < 9, ∀ c < 9, 1 ≤ Sudoku.cell b r c ∧ Sudoku.cell b r c ≤ 9) ∧
    (∀ r < 9, ∀ d, 1 ≤ d → d ≤ 9 →
      ((List.range 9).map fun c => Sudoku.cell b r c).count d = 1) ∧
    (∀ c < 9, ∀ d, 1 ≤ d → d ≤ 9 →
      ((List.range 9).map fun r => Sudoku.cell b r c).count d = 1) ∧
    (∀ i < 9, ∀ d, 1 ≤ d → d ≤ 9 →
      ((List.range 9).map fun t =>
        Sudoku.cell b (i / 3 * 3 + t / 3) (i % 3 * 3 + t % 3)).count d = 1) := by
  unfold Sudoku.generateSolvedBoard at hgen
  cases hs : Sudoku.solveBacktrack rnd fuel (Sudoku.emptyBoard.set 0 firstRow) 0 with
  | mk o k2 =>
      rw [hs] at hgen
      simp only at hgen
      subst hgen
      obtain ⟨⟨hwf, hval, hbnd⟩, hcomp⟩ :=
        Sudoku.solveBacktrack_sound rnd hrnd fuel _ 0 b k2
          (Sudoku.initial_good firstRow hfr) hs
      have hcompletely : ∀ r < 9, ∀ c < 9, Sudoku.cell b r c ≠ 0 := by
        intro r hr c hc
        simp only [Sudoku.isComplete, List.all_eq_true, List.mem_range,
          decide_eq_true_eq] at hcomp
        exact hcomp r hr c hc
      obtain ⟨hrow, hcol, hbox⟩ := Sudoku.isValidBoard_iff.mp hval
      refine ⟨hval, ?_, ?_, ?_, ?_⟩
      · intro r hr c hc
        have h1 := hcompletely r hr c hc
        have h2 := hbnd r hr c hc
        omega
      · intro r hr
        exact Sudoku.unit_count_eq_one _ (hrow r hr)
          (fun i hi => hcompletely r hr i hi) (fun i hi => hbnd r hr i hi)
      · intro c hc
        exact Sudoku.unit_count_eq_one _ (hcol c hc)
          (fun i hi => hcompletely i hi c hc) (fun i hi => hbnd i hi c hc)
      · intro i hi
        exact Sudoku.unit_count_eq_one _ (hbox i hi)
          (fun t ht => hcompletely _ (by omega) _ (by omega))
          (fun t ht => hbnd _ (by omega) _ (by omega))

/-- The standard cyclic solved grid used as the concrete C5 instance. -/
def sudokuWitnessGrid : Sudoku.SBoard :=
  (List.range 9).map fun r => (List.range 9).map fun c => (3 * (r % 3) + r / 3 + c) % 9 + 1

/-- First row fed to the generator in the witness run: 1..9 in order. -/
def sudokuWitnessFirstRow : List Nat := (List.range 9).map (· + 1)

/-- Digit stream that makes the backtracker place the cyclic grid digit
first at every visited cell (no backtracking). -/
def sudokuWitnessRnd (k : Nat) : List Nat :=
  [(3 * (((k + 9) / 9) % 3) + ((k + 9) / 9) / 3 + ((k + 9) % 9)) % 9 + 1]

theorem sudokuWitnessRnd_range : ∀ k, ∀ n ∈ sudokuWitnessRnd k, 1 ≤ n ∧ n ≤ 9 := by
  intro k n hn
  simp only [sudokuWitnessRnd, List.mem_singleton] at hn
  subst hn
  have h9 : (3 * (((k + 9) / 9) % 3) + ((k + 9) / 9) / 3 + ((k + 9) % 9)) % 9 < 9 :=
    Nat.mod_lt _ (by omega)
  omega

/-- Witness for C5: a concrete successful run of the generator, with the
theorem applied to it. -/
theorem C5_generateSolvedBoard_complete_valid_witness :
    Sudoku.generateSolvedBoard sudokuWitnessFirstRow sudokuWitnessRnd 100 =
      some sudokuWitnessGrid ∧
    Sudoku.isValidBoard sudokuWitnessGrid = true ∧
    (∀ r < 9, ∀ c < 9, 1 ≤ Sudoku.cell sudokuWitnessGrid r c ∧
      Sudoku.cell sudokuWitnessGrid r c ≤ 9) := by
  have hgen : Sudoku.generateSolvedBoard sudokuWitnessFirstRow sudokuWitnessRnd 100 =
      some sudokuWitnessGrid := by decide
  have h := C5_generateSolvedBoard_complete_valid sudokuWitnessFirstRow sudokuWitnessRnd
    100 sudokuWitnessGrid (by decide) sudokuWitnessRnd_range hgen
  exact ⟨hgen, h.1, h.2.1⟩

namespace Sudoku

/-- `positionsByDigit[d]`: all positions holding digit `d`, in the
row-major scan order of `generatePuzzleFromSolution`. -/
def positionsOfDigit (sol : SBoard) (d : Nat) : List (Nat × Nat) :=
  (List.range 81).filterMap fun idx =>
    if cell sol (idx / 9) (idx % 9) = d then some (idx / 9, idx % 9) else none

/-- Insertion of a keyed pair into a key-sorted list. -/
def insertByKey (x : Nat × Nat) : List (Nat × Nat) → List (Nat × Nat)
  | [] => [x]
  | y :: ys => if x.1 ≤ y.1 then x :: y :: ys else y :: insertByKey x ys

/-- Insertion sort by key, used to model the property order of
`Object.entries`. -/
def sortByKey : List (Nat × Nat) → List (Nat × Nat)
  | [] => []
  | x :: xs => insertByKey x (sortByKey xs)

/-- The `(digit, count)` pairs of `Object.entries(requirements)`.  The JS
object receives the key `String([d0, d1]) = "d0,d1"` for the `thrice`
digits - `parseInt` later reads it as `d0`, so `d1` never gets 3 givens -
plus the six integer-like keys of the `twice` and `singles` digits.
`Object.entries` lists integer-like keys first in ascending order,
followed by the composite key. -/
def requirementEntries (digits : List Nat) : List (Nat × Nat) :=
  sortByKey
    [(digits.getD 2 0, 2), (digits.getD 3 0, 2), (digits.getD 4 0, 2),
     (digits.getD 5 0, 1), (digits.getD 6 0, 1), (digits.getD 7 0, 1)] ++
  [(digits.getD 0 0, 3)]

/-- All 81 positions in row-major order. -/
def allPositions : List (Nat × Nat) :=
  (List.range 81).map fun idx => (idx / 9, idx % 9)

/-- `generatePuzzleFromSolution()` for a freshly generated solution `sol`
(the source regenerates the solution itself only when it is still the
all-zero placeholder, which cannot happen on the `generateBoard` path).
`digits` is the shuffled digit list, `shuf d` the shuffle applied to
digit `d`'s positions, `posShuffle` the shuffle applied to `allPositions`
in the length-16 fallback.  Returns the puzzle board and the list of
given positions (the keys of the JS `givens` object). -/
def generatePuzzleFromSolution (sol : SBoard) (digits : List Nat)
    (shuf : Nat → List (Nat × Nat) → List (Nat × Nat))
    (posShuffle : List (Nat × Nat) → List (Nat × Nat)) :
    SBoard × List (Nat × Nat) :=
  let chosenPositions :=
    (requirementEntries digits).flatMap fun e =>
      ((shuf e.1 (positionsOfDigit sol e.1)).take e.2).map fun p => (e.1, p)
  let finalPositions :=
    if chosenPositions.length ≠ 16 then
      ((posShuffle allPositions).take 16).map fun p => (cell sol p.1 p.2, p)
    else chosenPositions
  let puzzle := finalPositions.foldl (fun b e => setCell b e.2.1 e.2.2 e.1) emptyBoard
  (puzzle, finalPositions.map fun e => e.2)

/-- `generateBoard()`: generate a solution, then the puzzle from it.
Returns `(puzzleBoard, givens, solution)` (the JS result's
`digitsChosen` field is UI-only and omitted). -/
def generateBoard (firstRow : List Nat) (rnd : Nat → List Nat) (fuel : Nat)
    (digits : List Nat) (shuf : Nat → List (Nat × Nat) → List (Nat × Nat))
    (posShuffle : List (Nat × Nat) → List (Nat × Nat)) :
    Option (SBoard × List (Nat × Nat) × SBoard) :=
  match generateSolvedBoard firstRow rnd fuel with
  | none => none
  | some sol =>
      let pg := generatePuzzleFromSolution sol digits shuf posShuffle
      some (pg.1, pg.2, sol)

end Sudoku

namespace Sudoku

theorem insertByKey_perm (x : Nat × Nat) (l : List (Nat × Nat)) :
    (insertByKey x l).Perm (x :: l) := by
  induction l with
  | nil => exact List.Perm.refl _
  | cons y ys ih =>
      rw [insertByKey]
      by_cases h : x.1 ≤ y.1
      · rw [if_pos h]
      · rw [if_neg h]
        exact (List.Perm.cons y ih).trans (List.Perm.swap x y ys)

theorem sortByKey_perm (l : List (Nat × Nat)) : (sortByKey l).Perm l := by
  induction l with
  | nil => exact List.Perm.refl _
  | cons x xs ih =>
      exact (insertByKey_perm x (sortByKey xs)).trans (List.Perm.cons x ih)

theorem mem_positionsOfDigit {sol : SBoard} {d : Nat} {p : Nat × Nat} :
    p ∈ positionsOfDigit sol d ↔ p.1 < 9 ∧ p.2 < 9 ∧ cell sol p.1 p.2 = d := by
  unfold positionsOfDigit
  rw [List.mem_filterMap]
  constructor
  · rintro ⟨idx, hidx, hf⟩
    rw [List.mem_range] at hidx
    by_cases hcell : cell sol (idx / 9) (idx % 9) = d
    · rw [if_pos hcell] at hf
      obtain rfl : (idx / 9, idx % 9) = p := by simpa using hf
      exact ⟨by omega, by omega, hcell⟩
    · rw [if_neg hcell] at hf
      simp at hf
  · rintro ⟨h1, h2, h3⟩
    refine ⟨p.1 * 9 + p.2, by rw [List.mem_range]; omega, ?_⟩
    have hdiv : (p.1 * 9 + p.2) / 9 = p.1 := by omega
    have hmod : (p.1 * 9 + p.2) % 9 = p.2 := by omega
    rw [hdiv, hmod, if_pos h3]

theorem positionsOfDigit_nodup (sol : SBoard) (d : Nat) :
    (positionsOfDigit sol d).Nodup := by
  apply List.Nodup.filterMap _ (List.nodup_range 81)
  intro a a' b hb hb'
  by_cases hc : cell sol (a / 9) (a % 9) = d
  · rw [if_pos hc] at hb
    by_cases hc' : cell sol (a' / 9) (a' % 9) = d
    · rw [if_pos hc'] at hb'
      simp only [Option.mem_def, Option.some.injEq] at hb hb'
      rw [← hb'] at hb
      have h1 : a / 9 = a' / 9 := (Prod.mk.injEq _ _ _ _).mp hb |>.1
      have h2 : a % 9 = a' % 9 := (Prod.mk.injEq _ _ _ _).mp hb |>.2
      omega
    · rw [if_neg hc'] at hb'; simp at hb'
  · rw [if_neg hc] at hb; simp at hb

theorem cell_emptyBoard (r c : Nat) : cell emptyBoard r c = 0 := by
  unfold cell emptyBoard
  by_cases hr : r < 9
  · have hrow : (List.replicate 9 (List.replicate 9 (0 : Nat))).getD r [] =
        List.replicate 9 0 := by
      rw [List.getD_eq_getElem _ _ (by rw [List.length_replicate]; omega)]
      exact List.getElem_replicate _ (by rw [List.length_replicate]; omega)
    rw [hrow]
    exact getD_replicate_zero c
  · have hrow : (List.replicate 9 (List.replicate 9 (0 : Nat))).getD r [] = [] := by
      rw [List.getD_eq_default _ _ (by rw [List.length_replicate]; omega)]
    rw [hrow]
    cases c <;> rfl

theorem WF_emptyBoard : WF emptyBoard := by
  refine ⟨by simp [emptyBoard], ?_⟩
  intro row hrow
  rw [emptyBoard] at hrow
  rw [List.eq_of_mem_replicate hrow]
  simp

/-- Cells of the foldl of `setCell` writes with pairwise-distinct
positions: a written position holds its entry's value, everything else is
untouched. -/
theorem cell_foldl_setCell :
    ∀ (entries : List (Nat × Nat × Nat)) (b0 : SBoard), WF b0 →
      (entries.map fun e => e.2).Nodup →
      (∀ e ∈ entries, e.2.1 < 9 ∧ e.2.2 < 9) →
      ∀ r c, r < 9 → c < 9 →
        ((∀ e ∈ entries, ¬(e.2.1 = r ∧ e.2.2 = c)) →
          cell (entries.foldl (fun b e => setCell b e.2.1 e.2.2 e.1) b0) r c =
            cell b0 r c) ∧
        (∀ e ∈ entries, e.2.1 = r → e.2.2 = c →
          cell (entries.foldl (fun b e => setCell b e.2.1 e.2.2 e.1) b0) r c = e.1) := by
  intro entries
  induction entries with
  | nil =>
      intro b0 _ _ _ r c _ _
      exact ⟨fun _ => rfl, fun e he => absurd he (List.not_mem_nil e)⟩
  | cons e es ih =>
      intro b0 hwf hnodup hbounds r c hr hc
      rw [List.foldl_cons]
      have hwf1 : WF (setCell b0 e.2.1 e.2.2 e.1) := WF_setCell hwf _ _ _
      have hnodup' : (es.map fun e => e.2).Nodup := (List.nodup_cons.mp hnodup).2
      have hnotin : e.2 ∉ es.map fun e => e.2 := (List.nodup_cons.mp hnodup).1
      have hbounds' : ∀ e' ∈ es, e'.2.1 < 9 ∧ e'.2.2 < 9 :=
        fun e' he' => hbounds e' (List.mem_cons_of_mem e he')
      obtain ⟨ihA, ihB⟩ := ih (setCell b0 e.2.1 e.2.2 e.1) hwf1 hnodup' hbounds' r c hr hc
      constructor
      · intro hnone
        rw [ihA (fun e' he' => hnone e' (List.mem_cons_of_mem e he'))]
        rw [cell_setCell hwf e.2.1 e.2.2 e.1 r c hr hc]
        rw [if_neg]
        intro hcon
        exact hnone e (List.mem_cons_self e es) ⟨hcon.1.symm, hcon.2.symm⟩
      · intro e' he' hre hce
        rcases List.mem_cons.mp he' with rfl | hes
        · rw [ihA ?_]
          · rw [cell_setCell hwf e'.2.1 e'.2.2 e'.1 r c hr hc,
              if_pos ⟨hre.symm, hce.symm⟩]
          · intro e2 he2 hcon
            apply hnotin
            have : e2.2 = e'.2 := by
              have h1 : e2.2.1 = e'.2.1 := by rw [hcon.1, hre]
              have h2 : e2.2.2 = e'.2.2 := by rw [hcon.2, hce]
              exact Prod.ext h1 h2
            rw [← this]
            exact List.mem_map_of_mem _ he2
        · exact ihB e' hes hre hce

end Sudoku

namespace Sudoku

theorem isComplete_spec {b : SBoard} (h : isComplete b = true) :
    ∀ r < 9, ∀ c < 9, cell b r c ≠ 0 := by
  intro r hr c hc
  simp only [isComplete, List.all_eq_true, List.mem_range, decide_eq_true_eq] at h
  exact h r hr c hc

/-- In a complete valid solution every digit 1..9 occupies at least three
positions (one in each of the first three rows). -/
theorem positionsOfDigit_three_le {sol : SBoard} (hgood : Good sol)
    (hcomp : isComplete sol = true) {d : Nat} (hd1 : 1 ≤ d) (hd9 : d ≤ 9) :
    3 ≤ (positionsOfDigit sol d).length := by
  obtain ⟨hwf, hval, hbnd⟩ := hgood
  have hcompletely := isComplete_spec hcomp
  obtain ⟨hrow, _, _⟩ := isValidBoard_iff.mp hval
  have hrowmem : ∀ r < 9, ∃ c, c < 9 ∧ cell sol r c = d := by
    intro r hr
    have hcount := unit_count_eq_one _ (hrow r hr)
      (fun i hi => hcompletely r hr i hi) (fun i hi => hbnd r hr i hi) d hd1 hd9
    have hmem : d ∈ (List.range 9).map fun c => cell sol r c := by
      have hpos : 0 < ((List.range 9).map fun c => cell sol r c).count d := by omega
      exact List.count_pos_iff.mp hpos
    rw [List.mem_map] at hmem
    obtain ⟨c, hcr, hcell⟩ := hmem
    exact ⟨c, List.mem_range.mp hcr, hcell⟩
  obtain ⟨c0, hc0, h0⟩ := hrowmem 0 (by omega)
  obtain ⟨c1, hc1, h1⟩ := hrowmem 1 (by omega)
  obtain ⟨c2, hc2, h2⟩ := hrowmem 2 (by omega)
  have hsub : [((0 : Nat), c0), (1, c1), (2, c2)] ⊆ positionsOfDigit sol d := by
    intro p hp
    simp only [List.mem_cons, List.not_mem_nil, or_false] at hp
    rcases hp with rfl | rfl | rfl
    · exact mem_positionsOfDigit.mpr ⟨by omega, hc0, h0⟩
    · exact mem_positionsOfDigit.mpr ⟨by omega, hc1, h1⟩
    · exact mem_positionsOfDigit.mpr ⟨by omega, hc2, h2⟩
  have hnd : ([((0 : Nat), c0), (1, c1), (2, c2)]).Nodup := by
    simp [Prod.ext_iff]
  exact (List.subperm_of_subset hnd hsub).length_le

theorem digits_getD_range {digits : List Nat}
    (hdig : digits.Perm ((List.range 9).map (· + 1))) :
    ∀ i, i < 9 → 1 ≤ digits.getD i 0 ∧ digits.getD i 0 ≤ 9 := by
  intro i hi
  have hlen : digits.length = 9 := by simpa using hdig.length_eq
  rw [List.getD_eq_getElem _ _ (by omega)]
  have hm : digits[i] ∈ digits := List.getElem_mem _
  have hm2 := hdig.mem_iff.mp hm
  rw [List.mem_map] at hm2
  obtain ⟨j, hj, hji⟩ := hm2
  rw [List.mem_range] at hj
  omega

theorem requirementEntries_spec {digits : List Nat} :
    ∀ e ∈ requirementEntries digits,
      (∃ i, i < 9 ∧ e.1 = digits.getD i 0) ∧ 1 ≤ e.2 ∧ e.2 ≤ 3 := by
  intro e he
  unfold requirementEntries at he
  rcases List.mem_append.mp he with h | h
  · have hm := (sortByKey_perm _).mem_iff.mp h
    simp only [List.mem_cons, List.not_mem_nil, or_false] at hm
    rcases hm with rfl | rfl | rfl | rfl | rfl | rfl
    · exact ⟨⟨2, by omega, rfl⟩, by omega, by omega⟩
    · exact ⟨⟨3, by omega, rfl⟩, by omega, by omega⟩
    · exact ⟨⟨4, by omega, rfl⟩, by omega, by omega⟩
    · exact ⟨⟨5, by omega, rfl⟩, by omega, by omega⟩
    · exact ⟨⟨6, by omega, rfl⟩, by omega, by omega⟩
    · exact ⟨⟨7, by omega, rfl⟩, by omega, by omega⟩
  · simp only [List.mem_singleton] at h
    subst h
    exact ⟨⟨0, by omega, rfl⟩, by omega, by omega⟩

/-- The requirements pass selects only 12 positions (the composite
`"d0,d1"` key contributes 3, three digits contribute 2 each, three
contribute 1 each), so the length-16 check always fails over a complete
valid solution. -/
theorem chosen_length_twelve {sol : SBoard} {digits : List Nat}
    {shuf : Nat → List (Nat × Nat) → List (Nat × Nat)}
    (hgood : Good sol) (hcomp : isComplete sol = true)
    (hdig : digits.Perm ((List.range 9).map (· + 1)))
    (hshuf : ∀ d l, (shuf d l).Perm l) :
    ((requirementEntries digits).flatMap fun e =>
      ((shuf e.1 (positionsOfDigit sol e.1)).take e.2).map fun p => (e.1, p)).length
      = 12 := by
  rw [List.length_flatMap]
  have hforall : ∀ e ∈ requirementEntries digits,
      (((shuf e.1 (positionsOfDigit sol e.1)).take e.2).map fun p => (e.1, p)).length
        = e.2 := by
    intro e he
    obtain ⟨⟨i, hi, hei⟩, he21, he23⟩ := requirementEntries_spec e he
    have hrange := digits_getD_range hdig i hi
    have hlen3 : 3 ≤ (positionsOfDigit sol e.1).length := by
      apply positionsOfDigit_three_le hgood hcomp <;> omega
    have hlenshuf : (shuf e.1 (positionsOfDigit sol e.1)).length =
        (positionsOfDigit sol e.1).length := (hshuf _ _).length_eq
    rw [List.length_map, List.length_take, hlenshuf]
    omega
  have heq : List.map (List.length ∘ fun e : Nat × Nat =>
      List.map (fun p => (e.1, p)) (List.take e.2 (shuf e.1 (positionsOfDigit sol e.1))))
      (requirementEntries digits) =
      List.map (fun e : Nat × Nat => e.2) (requirementEntries digits) := by
    apply List.map_congr_left
    intro e he
    simp only [Function.comp_apply]
    exact hforall e he
  rw [heq]
  unfold requirementEntries
  rw [List.map_append, List.sum_append]
  have hperm := (sortByKey_perm
    [(digits.getD 2 0, 2), (digits.getD 3 0, 2), (digits.getD 4 0, 2),
     (digits.getD 5 0, 1), (digits.getD 6 0, 1), (digits.getD 7 0, 1)]).map
    (fun e : Nat × Nat => e.2)
  rw [hperm.sum_eq]
  rfl

end Sudoku

namespace Sudoku

theorem allPositions_length : allPositions.length = 81 := by
  simp [allPositions]

theorem allPositions_nodup : allPositions.Nodup := by
  apply List.Nodup.map_on _ (List.nodup_range 81)
  intro x hx y hy hxy
  rw [List.mem_range] at hx hy
  have h1 : x / 9 = y / 9 := (Prod.mk.injEq _ _ _ _).mp hxy |>.1
  have h2 : x % 9 = y % 9 := (Prod.mk.injEq _ _ _ _).mp hxy |>.2
  omega

theorem mem_allPositions {p : Nat × Nat} (h : p ∈ allPositions) :
    p.1 < 9 ∧ p.2 < 9 := by
  unfold allPositions at h
  rw [List.mem_map] at h
  obtain ⟨idx, hidx, rfl⟩ := h
  rw [List.mem_range] at hidx
  exact ⟨by omega, by omega⟩

/-- Extraction of the generator run underlying a returned solved board. -/
theorem generateSolvedBoard_good {firstRow : List Nat} {rnd : Nat → List Nat}
    {fuel : Nat} {b : SBoard}
    (hfr : firstRow.Perm ((List.range 9).map (· + 1)))
    (hrnd : ∀ k, ∀ n ∈ rnd k, 1 ≤ n ∧ n ≤ 9)
    (hgen : generateSolvedBoard firstRow rnd fuel = some b) :
    Good b ∧ isComplete b = true := by
  unfold generateSolvedBoard at hgen
  cases hs : solveBacktrack rnd fuel (emptyBoard.set 0 firstRow) 0 with
  | mk o k2 =>
      rw [hs] at hgen
      simp only at hgen
      subst hgen
      exact solveBacktrack_sound rnd hrnd fuel _ 0 b k2 (initial_good firstRow hfr) hs

end Sudoku

/-- C6: every result of `generateBoard` is a puzzle with exactly 16 given
cells: the givens list marks 16 distinct in-range positions, each given
cell of the puzzle equals the corresponding cell of the returned solution
(hence is non-zero), and every other cell is 0. -/
theorem C6_generateBoard_puzzle_spec
    (firstRow : List Nat) (rnd : Nat → List Nat) (fuel : Nat)
    (digits : List Nat) (shuf : Nat → List (Nat × Nat) → List (Nat × Nat))
    (posShuffle : List (Nat × Nat) → List (Nat × Nat))
    (puzzle : Sudoku.SBoard) (givens : List (Nat × Nat)) (sol : Sudoku.SBoard)
    (hfr : firstRow.Perm ((List.range 9).map (· + 1)))
    (hrnd : ∀ k, ∀ n ∈ rnd k, 1 ≤ n ∧ n ≤ 9)
    (hdig : digits.Perm ((List.range 9).map (· + 1)))
    (hshuf : ∀ d l, (shuf d l).Perm l)
    (hpos : ∀ l, (posShuffle l).Perm l)
    (hgen : Sudoku.generateBoard firstRow rnd fuel digits shuf posShuffle =
      some (puzzle, givens, sol)) :
    givens.length = 16 ∧ givens.Nodup ∧
    (∀ p ∈ givens, p.1 < 9 ∧ p.2 < 9 ∧
      Sudoku.cell puzzle p.1 p.2 = Sudoku.cell sol p.1 p.2 ∧
      Sudoku.cell puzzle p.1 p.2 ≠ 0) ∧
    (∀ r < 9, ∀ c < 9, (r, c) ∉ givens → Sudoku.cell puzzle r c = 0) := by
  unfold Sudoku.generateBoard at hgen
  cases hsol : Sudoku.generateSolvedBoard firstRow rnd fuel with
  | none => rw [hsol] at hgen; simp at hgen
  | some sol0 =>
      rw [hsol] at hgen
      simp only [Option.some.injEq, Prod.mk.injEq] at hgen
      obtain ⟨hpz, hgv, hsl⟩ := hgen
      rw [← hsl]
      obtain ⟨hgoodsol, hcompsol⟩ := Sudoku.generateSolvedBoard_good hfr hrnd hsol
      have h12 := @Sudoku.chosen_length_twelve sol0 digits shuf hgoodsol hcompsol hdig hshuf
      rw [Sudoku.generatePuzzleFromSolution] at hpz hgv
      simp only [h12] at hpz hgv
      rw [if_pos (by omega)] at hpz hgv
      set sel := (posShuffle Sudoku.allPositions).take 16 with hsel
      have hshufperm := hpos Sudoku.allPositions
      have hsellen : sel.length = 16 := by
        rw [hsel, List.length_take, hshufperm.length_eq, Sudoku.allPositions_length]
        omega
      have hselsub : ∀ p ∈ sel, p.1 < 9 ∧ p.2 < 9 := by
        intro p hp
        have hp2 : p ∈ posShuffle Sudoku.allPositions :=
          (List.take_sublist 16 _).subset hp
        exact Sudoku.mem_allPositions (hshufperm.mem_iff.mp hp2)
      have hselnodup : sel.Nodup :=
        (List.take_sublist 16 _).nodup
          (hshufperm.nodup_iff.mpr Sudoku.allPositions_nodup)
      have hgivens : givens = sel := by
        rw [← hgv, List.map_map]
        have hcomp2 : ((fun e : Nat × (Nat × Nat) => e.2) ∘ fun p : Nat × Nat =>
            (Sudoku.cell sol0 p.1 p.2, p)) = id := rfl
        rw [hcomp2, List.map_id]
      have hentries : (sel.map fun p => (Sudoku.cell sol0 p.1 p.2, p)).map
          (fun e => e.2) = sel := by
        rw [List.map_map]
        have hcomp3 : ((fun e : Nat × (Nat × Nat) => e.2) ∘ fun p : Nat × Nat =>
            (Sudoku.cell sol0 p.1 p.2, p)) = id := rfl
        rw [hcomp3, List.map_id]
      have hbounds : ∀ e ∈ sel.map fun p => (Sudoku.cell sol0 p.1 p.2, p),
          e.2.1 < 9 ∧ e.2.2 < 9 := by
        intro e he
        rw [List.mem_map] at he
        obtain ⟨p, hp, rfl⟩ := he
        exact hselsub p hp
      have hnodupentries : ((sel.map fun p => (Sudoku.cell sol0 p.1 p.2, p)).map
          fun e => e.2).Nodup := by
        rw [hentries]; exact hselnodup
      refine ⟨by rw [hgivens, hsellen], by rw [hgivens]; exact hselnodup, ?_, ?_⟩
      · intro p hp
        rw [hgivens] at hp
        obtain ⟨hp1, hp2⟩ := hselsub p hp
        have hfold := Sudoku.cell_foldl_setCell
          (sel.map fun p => (Sudoku.cell sol0 p.1 p.2, p)) Sudoku.emptyBoard
          Sudoku.WF_emptyBoard hnodupentries hbounds p.1 p.2 hp1 hp2
        have hcellval : Sudoku.cell puzzle p.1 p.2 = Sudoku.cell sol0 p.1 p.2 := by
          rw [← hpz]
          exact hfold.2 (Sudoku.cell sol0 p.1 p.2, p)
            (List.mem_map_of_mem _ hp) rfl rfl
        refine ⟨hp1, hp2, hcellval, ?_⟩
        rw [hcellval]
        exact Sudoku.isComplete_spec hcompsol p.1 hp1 p.2 hp2
      · intro r hr c hc hnot
        rw [hgivens] at hnot
        have hfold := Sudoku.cell_foldl_setCell
          (sel.map fun p => (Sudoku.cell sol0 p.1 p.2, p)) Sudoku.emptyBoard
          Sudoku.WF_emptyBoard hnodupentries hbounds r c hr hc
        rw [← hpz]
        rw [hfold.1 ?_]
        · exact Sudoku.cell_emptyBoard r c
        · intro e he hcon
          rw [List.mem_map] at he
          obtain ⟨p, hp, rfl⟩ := he
          apply hnot
          have : p = (r, c) := Prod.ext hcon.1 hcon.2
          rw [← this]
          exact hp

/-- Digit shuffle used in the concrete C6 run: the identity order. -/
def c6WitnessDigits : List Nat := (List.range 9).map (· + 1)

/-- The puzzle produced by the concrete C6 run (fallback givens: the
first 16 positions in row-major order). -/
def c6WitnessPuzzle : Sudoku.SBoard :=
  [[1, 2, 3, 4, 5, 6, 7, 8, 9], [4, 5, 6, 7, 8, 9, 1, 0, 0],
   [0, 0, 0, 0, 0, 0, 0, 0, 0], [0, 0, 0, 0, 0, 0, 0, 0, 0],
   [0, 0, 0, 0, 0, 0, 0, 0, 0], [0, 0, 0, 0, 0, 0, 0, 0, 0],
   [0, 0, 0, 0, 0, 0, 0, 0, 0], [0, 0, 0, 0, 0, 0, 0, 0, 0],
   [0, 0, 0, 0, 0, 0, 0, 0, 0]]

/-- The givens of the concrete C6 run. -/
def c6WitnessGivens : List (Nat × Nat) :=
  (List.range 16).map fun i => (i / 9, i % 9)

/-- Witness for C6: a concrete full run of `generateBoard` with the
theorem applied to it. -/
theorem C6_generateBoard_puzzle_spec_witness :
    Sudoku.generateBoard sudokuWitnessFirstRow sudokuWitnessRnd 100 c6WitnessDigits
      (fun _ l => l) (fun l => l) =
      some (c6WitnessPuzzle, c6WitnessGivens, sudokuWitnessGrid) ∧
    c6WitnessGivens.length = 16 ∧ c6WitnessGivens.Nodup ∧
    (∀ p ∈ c6WitnessGivens, p.1 < 9 ∧ p.2 < 9 ∧
      Sudoku.cell c6WitnessPuzzle p.1 p.2 = Sudoku.cell sudokuWitnessGrid p.1 p.2 ∧
      Sudoku.cell c6WitnessPuzzle p.1 p.2 ≠ 0) ∧
    (∀ r < 9, ∀ c < 9, (r, c) ∉ c6WitnessGivens →
      Sudoku.cell c6WitnessPuzzle r c = 0) := by
  have hgen : Sudoku.generateBoard sudokuWitnessFirstRow sudokuWitnessRnd 100
      c6WitnessDigits (fun _ l => l) (fun l => l) =
      some (c6WitnessPuzzle, c6WitnessGivens, sudokuWitnessGrid) := by decide
  have h := C6_generateBoard_puzzle_spec sudokuWitnessFirstRow sudokuWitnessRnd 100
    c6WitnessDigits (fun _ l => l) (fun l => l)
    c6WitnessPuzzle c6WitnessGivens sudokuWitnessGrid
    (by decide) sudokuWitnessRnd_range (by decide)
    (fun _ l => List.Perm.refl l) (fun l => List.Perm.refl l) hgen
  exact ⟨hgen, h.1, h.2.1, h.2.2.1, h.2.2.2⟩

/-! ## Snake (src/screens/SnakeGame.js) -/

namespace Snake

/-- A grid position or direction vector (JS number pairs; `Int` because
`nextX`/`nextY` may be negative at the walls). -/
structure Pos where
  x : Int
  y : Int
deriving DecidableEq, Repr

/-- The `Snake` class state: segments (head first), the last executed
direction, the queued direction, and the pending-growth flag. -/
structure SnakeS where
  segments : List Pos
  dir : Pos
  nextDir : Pos
  growing : Bool
deriving DecidableEq, Repr

/-- `new Snake(3)`: head at (3, 10), moving right. -/
def snakeInit : SnakeS :=
  ⟨[⟨3, 10⟩, ⟨2, 10⟩, ⟨1, 10⟩], ⟨1, 0⟩, ⟨1, 0⟩, false⟩

/-- `setDirection(newDirection)`: the queued direction is updated unless
the request is the exact negation of the last executed direction. -/
def setDirection (s : SnakeS) (d : Pos) : SnakeS :=
  if d.x ≠ -s.dir.x ∨ d.y ≠ -s.dir.y then { s with nextDir := d } else s

/-- `move()`: commit the queued direction, grow a new head, drop the tail
unless growing. -/
def move (s : SnakeS) : SnakeS :=
  let dir := s.nextDir
  let head := s.segments.headD ⟨0, 0⟩
  let segs := Pos.mk (head.x + dir.x) (head.y + dir.y) :: s.segments
  { segments := if s.growing then segs else segs.dropLast,
    dir := dir, nextDir := s.nextDir, growing := false }

/-- The food object: position and whether it is the 5-point special
food. -/
structure Food where
  pos : Pos
  special : Bool
deriving DecidableEq, Repr

/-- `GameManager` state. -/
structure GM where
  snake : SnakeS
  food : Food
  score : Nat
  running : Bool
  speed : Nat
  level : Nat
deriving DecidableEq, Repr

/-- `spawnFood()`: draw positions from the random stream until one is off
the snake body (the do-while loop), then draw the special flag.
`proposals j` is the j-th pair of floored `Math.random() * 20` draws;
`fuel` bounds the rejection loop. -/
def spawnFood (body : List Pos) (proposals : Nat → Pos) (special : Bool)
    (fuel : Nat) : Option Food :=
  ((List.range fuel).find? fun j =>
    !(body.any fun seg => seg.x = (proposals j).x ∧ seg.y = (proposals j).y)).map
    fun j => ⟨proposals j, special⟩

/-- `GameManager.update()`: wall test, self test, move, eat/spawn/level.
Returns the updated manager and the `gameOver` flag (`none` only when the
spawn fuel runs out, which no JS run corresponds to). -/
def update (gm : GM) (proposals : Nat → Pos) (special : Bool) (fuel : Nat) :
    Option (GM × Bool) :=
  if gm.running = false then some (gm, false)
  else
    let dir := gm.snake.nextDir
    let head := gm.snake.segments.headD ⟨0, 0⟩
    let nextX := head.x + dir.x
    let nextY := head.y + dir.y
    if nextX < 0 ∨ nextX ≥ 20 ∨ nextY < 0 ∨ nextY ≥ 20 then
      some ({ gm with running := false }, true)
    else if gm.snake.segments.any fun seg => seg.x = nextX ∧ seg.y = nextY then
      some ({ gm with running := false }, true)
    else
      let s2 := move gm.snake
      let newHead := s2.segments.headD ⟨0, 0⟩
      if gm.food.pos.x = newHead.x ∧ gm.food.pos.y = newHead.y then
        match spawnFood (({ s2 with growing := true } : SnakeS)).segments proposals
            special fuel with
        | none => none
        | some f =>
            let score2 := gm.score + (if gm.food.special then 5 else 1)
            let level2 := score2 / 10 + 1
            let speed2 := max 50 (200 - (level2 - 1) * 10)
            some ({ snake := { s2 with growing := true }, food := f, score := score2,
                    running := gm.running, speed := speed2, level := level2 }, false)
      else
        some ({ gm with snake := s2 }, false)

/-- UI events driving the engine: a timer tick (one `update()`) or a
swipe (`setDirection`). -/
inductive SnakeInput where
  | tick : SnakeInput
  | setDir : Pos → SnakeInput
deriving DecidableEq, Repr

/-- A run of the engine over an input sequence; each tick consumes a
fresh window of the position stream. -/
def runSnake : GM → List SnakeInput → (Nat → Pos) → (Nat → Bool) → Nat → Nat →
    Option GM
  | gm, [], _, _, _, _ => some gm
  | gm, SnakeInput.setDir d :: rest, proposals, special, fuel, k =>
      runSnake { gm with snake := setDirection gm.snake d } rest proposals special fuel k
  | gm, SnakeInput.tick :: rest, proposals, special, fuel, k =>
      match update gm (fun j => proposals (k + j)) (special k) fuel with
      | none => none
      | some (gm2, _) => runSnake gm2 rest proposals special fuel (k + fuel)

end Snake

/-! ## Tetris random piece (src/unnamed Tetris.js, getRandomTetromino) -/

namespace Tetris

/-- `TETROMINO_KEYS`. -/
def TETROMINO_KEYS : List String := ["I", "O", "T", "S", "Z", "J", "L"]

/-- `getRandomTetromino()`: `r` stands for the floored
`Math.random() * TETROMINO_KEYS.length` draw; returns the chosen key. -/
def getRandomTetromino (r : Nat) : String :=
  TETROMINO_KEYS.getD (r % 7) "I"

end Tetris

/-- A game state one tick away from eating the food. -/
def snakeCounterGM : Snake.GM :=
  { snake := ⟨[⟨5, 10⟩, ⟨4, 10⟩, ⟨3, 10⟩], ⟨1, 0⟩, ⟨1, 0⟩, false⟩,
    food := ⟨⟨6, 10⟩, false⟩, score := 0, running := true, speed := 200, level := 1 }

/-- Counterexample to C7 as stated: with equal states and equal (empty)
user inputs but different `Math.random()` draws, one `update()` tick
produces different states (the spawned food differs), and
`getRandomTetromino` produces different pieces.  The engines are not
deterministic in their inputs alone. -/
theorem C7_counterexample :
    Snake.update snakeCounterGM (fun _ => ⟨1, 1⟩) false 10 ≠
      Snake.update snakeCounterGM (fun _ => ⟨2, 2⟩) false 10 ∧
    Tetris.getRandomTetromino 0 ≠ Tetris.getRandomTetromino 1 :=
  ⟨by decide, by decide⟩

/-- C7 (amended): each engine is deterministic once the values drawn from
the random source are included among the run's inputs - two runs from
equal states with equal input sequences and equal random streams produce
equal results. -/
theorem C7_run_deterministic_given_randomness
    (gm1 gm2 : Snake.GM) (ins1 ins2 : List Snake.SnakeInput)
    (pr1 pr2 : Nat → Snake.Pos) (sp1 sp2 : Nat → Bool)
    (fuel1 fuel2 k1 k2 r1 r2 : Nat)
    (hgm : gm1 = gm2) (hins : ins1 = ins2) (hpr : pr1 = pr2) (hsp : sp1 = sp2)
    (hfuel : fuel1 = fuel2) (hk : k1 = k2) (hr : r1 = r2) :
    Snake.runSnake gm1 ins1 pr1 sp1 fuel1 k1 =
      Snake.runSnake gm2 ins2 pr2 sp2 fuel2 k2 ∧
    Tetris.getRandomTetromino r1 = Tetris.getRandomTetromino r2 := by
  subst hgm
  subst hins
  subst hpr
  subst hsp
  subst hfuel
  subst hk
  subst hr
  exact ⟨rfl, rfl⟩

/-- Witness for the amended C7 on a concrete run. -/
theorem C7_run_deterministic_given_randomness_witness :
    Snake.runSnake snakeCounterGM [Snake.SnakeInput.tick] (fun _ => ⟨1, 1⟩)
      (fun _ => false) 10 0 =
    Snake.runSnake snakeCounterGM [Snake.SnakeInput.tick] (fun _ => ⟨1, 1⟩)
      (fun _ => false) 10 0 ∧
    Tetris.getRandomTetromino 3 = Tetris.getRandomTetromino 3 :=
  C7_run_deterministic_given_randomness snakeCounterGM snakeCounterGM
    [Snake.SnakeInput.tick] [Snake.SnakeInput.tick]
    (fun _ => ⟨1, 1⟩) (fun _ => ⟨1, 1⟩) (fun _ => false) (fun _ => false)
    10 10 0 0 3 3 rfl rfl rfl rfl rfl rfl rfl

/-! ## High-score storage (src/screens/SnakeGame.js, StorageManager) -/

namespace Storage

/-- Outcome of the external `set(key, value)` collaborator. -/
inductive SetOutcome where
  | ok : SetOutcome
  | fails : SetOutcome
deriving DecidableEq, Repr

/-- Outcome of the external `get(key)` collaborator: a stored string,
absent (`null`), or a thrown failure. -/
inductive GetOutcome where
  | found : String → GetOutcome
  | absent : GetOutcome
  | fails : GetOutcome
deriving DecidableEq, Repr

/-- `saveHighScore(score)`: true on a successful `setItem`, false when it
throws. -/
def saveHighScore : SetOutcome → Bool
  | SetOutcome.ok => true
  | SetOutcome.fails => false

/-- Accumulator of `parseInt`'s digit scan: consume leading digits. -/
def parseDigitsAux : List Char → Nat → Nat
  | [], acc => acc
  | ch :: rest, acc =>
      if ch.isDigit then parseDigitsAux rest (acc * 10 + (ch.toNat - 48)) else acc

/-- JS `parseInt` on the strings relevant here: an optional minus sign
followed by leading digits; `none` models `NaN`. -/
def jsParseInt (s : String) : Option Int :=
  match s.data with
  | [] => none
  | ch :: rest =>
      if ch = '-' then
        match rest with
        | [] => none
        | ch2 :: _ =>
            if ch2.isDigit then some (-(parseDigitsAux rest 0 : Int)) else none
      else if ch.isDigit then some ((parseDigitsAux s.data 0 : Int)) else none

/-- `loadHighScore()`: `score ? parseInt(score) : 0` with 0 on absence or
failure; `none` models a `NaN` result. -/
def loadHighScore : GetOutcome → Option Int
  | GetOutcome.found s => if s = "" then some 0 else jsParseInt s
  | GetOutcome.absent => some 0
  | GetOutcome.fails => some 0

end Storage

/-- C8: the storage wrapper is total over the collaborator's outcomes:
`saveHighScore` returns true exactly on success and false on failure
(never throwing), and `loadHighScore` returns the stored score parsed as
an integer when the key holds one, and 0 when the key is absent or the
get fails. -/
theorem C8_storage_total :
    Storage.saveHighScore Storage.SetOutcome.ok = true ∧
    Storage.saveHighScore Storage.SetOutcome.fails = false ∧
    Storage.loadHighScore Storage.GetOutcome.absent = some 0 ∧
    Storage.loadHighScore Storage.GetOutcome.fails = some 0 ∧
    (∀ (s : String) (n : Int), Storage.jsParseInt s = some n →
      Storage.loadHighScore (Storage.GetOutcome.found s) = some n) := by
  refine ⟨rfl, rfl, rfl, rfl, ?_⟩
  intro s n h
  rw [Storage.loadHighScore]
  by_cases hs : s = ""
  · subst hs
    rw [Storage.jsParseInt] at h
    simp at h
  · rw [if_neg hs]
    exact h

/-- Witness for C8 at the stored string "42". -/
theorem C8_storage_total_witness :
    Storage.jsParseInt "42" = some 42 ∧
    Storage.loadHighScore (Storage.GetOutcome.found "42") = some 42 :=
  ⟨by decide, (C8_storage_total).2.2.2.2 "42" 42 (by decide)⟩

namespace Snake

/-- Interleaved client calls on the `Snake` object. -/
inductive SnakeOp where
  | opSet : Pos → SnakeOp
  | opMove : SnakeOp
deriving DecidableEq, Repr

/-- The directions actually executed by the `move()` calls of a run. -/
def moveDirs : SnakeS → List SnakeOp → List Pos
  | _, [] => []
  | s, SnakeOp.opSet d :: rest => moveDirs (setDirection s d) rest
  | s, SnakeOp.opMove :: rest => s.nextDir :: moveDirs (move s) rest

/-- The four unit directions the UI can request. -/
def unitDirs : List Pos := [⟨1, 0⟩, ⟨-1, 0⟩, ⟨0, 1⟩, ⟨0, -1⟩]

/-- `b` is the exact negation of `a` (a 180-degree reversal). -/
def Opposite (a b : Pos) : Prop := b.x = -a.x ∧ b.y = -a.y

instance : DecidablePred fun p : Pos × Pos => Opposite p.1 p.2 := by
  intro p
  unfold Opposite
  infer_instance

instance (a b : Pos) : Decidable (Opposite a b) := by
  unfold Opposite
  infer_instance

/-- Run invariant: both stored directions are unit vectors and the queued
direction never reverses the executed one. -/
def Inv (s : SnakeS) : Prop :=
  s.dir ∈ unitDirs ∧ s.nextDir ∈ unitDirs ∧ ¬ Opposite s.dir s.nextDir

theorem setDirection_dir (s : SnakeS) (d : Pos) : (setDirection s d).dir = s.dir := by
  unfold setDirection
  split <;> rfl

theorem move_dir (s : SnakeS) : (move s).dir = s.nextDir := rfl

theorem Inv_setDirection {s : SnakeS} (hInv : Inv s) {d : Pos} (hd : d ∈ unitDirs) :
    Inv (setDirection s d) := by
  unfold setDirection
  split
  · rename_i h
    exact ⟨hInv.1, hd, fun hop => by
      rcases h with h | h
      · exact h hop.1
      · exact h hop.2⟩
  · exact hInv

theorem Inv_move {s : SnakeS} (hInv : Inv s) : Inv (move s) := by
  refine ⟨hInv.2.1, hInv.2.1, ?_⟩
  obtain ⟨_, hu, _⟩ := hInv
  have : ∀ d ∈ unitDirs, ¬ Opposite d d := by decide
  exact this _ hu

/-- The executed directions, prefixed with the current executed
direction, form a reversal-free chain. -/
theorem moveDirs_chain :
    ∀ (ops : List SnakeOp) (s : SnakeS), Inv s →
      (∀ d, SnakeOp.opSet d ∈ ops → d ∈ unitDirs) →
      List.Chain' (fun a b => ¬ Opposite a b) (s.dir :: moveDirs s ops) := by
  intro ops
  induction ops with
  | nil => intro s _ _; simp [moveDirs]
  | cons op rest ih =>
      intro s hInv hops
      cases op with
      | opSet d =>
          rw [moveDirs, ← setDirection_dir s d]
          exact ih (setDirection s d)
            (Inv_setDirection hInv (hops d (List.mem_cons_self _ _)))
            (fun d' hd' => hops d' (List.mem_cons_of_mem _ hd'))
      | opMove =>
          rw [moveDirs]
          rw [List.chain'_cons]
          refine ⟨hInv.2.2, ?_⟩
          rw [← move_dir s]
          exact ih (move s) (Inv_move hInv)
            (fun d' hd' => hops d' (List.mem_cons_of_mem _ hd'))

end Snake

/-- C10: `setDirection` ignores a request that exactly negates the last
executed direction, and consequently, in every run of interleaved
`setDirection`/`move` calls from the initial snake where the requested
directions are unit vectors, the movement directions of two consecutive
`move()` steps are never opposite: the snake cannot reverse 180 degrees. -/
theorem C10_no_reversal :
    (∀ (s : Snake.SnakeS) (d : Snake.Pos), Snake.Opposite s.dir d →
      Snake.setDirection s d = s) ∧
    (∀ ops : List Snake.SnakeOp,
      (∀ d, Snake.SnakeOp.opSet d ∈ ops → d ∈ Snake.unitDirs) →
      List.Chain' (fun a b => ¬ Snake.Opposite a b)
        (Snake.moveDirs Snake.snakeInit ops)) := by
  constructor
  · intro s d hop
    unfold Snake.setDirection
    rw [if_neg]
    intro h
    rcases h with h | h
    · exact h hop.1
    · exact h hop.2
  · intro ops hops
    exact (Snake.moveDirs_chain ops Snake.snakeInit
      ⟨by decide, by decide, by decide⟩ hops).tail

/-- The concrete run used as C10 witness: up, then an ignored reversal
request, then left. -/
def c10Ops : List Snake.SnakeOp :=
  [Snake.SnakeOp.opSet ⟨0, 1⟩, Snake.SnakeOp.opMove,
   Snake.SnakeOp.opSet ⟨0, -1⟩, Snake.SnakeOp.opMove,
   Snake.SnakeOp.opSet ⟨-1, 0⟩, Snake.SnakeOp.opMove]

/-- Witness for C10 on a concrete operation sequence and a concrete
rejected reversal. -/
theorem C10_no_reversal_witness :
    Snake.setDirection Snake.snakeInit ⟨-1, 0⟩ = Snake.snakeInit ∧
    List.Chain' (fun a b => ¬ Snake.Opposite a b)
      (Snake.moveDirs Snake.snakeInit c10Ops) := by
  constructor
  · exact C10_no_reversal.1 Snake.snakeInit ⟨-1, 0⟩ (by decide)
  · apply C10_no_reversal.2 c10Ops
    intro d hd
    simp only [c10Ops, List.mem_cons, List.not_mem_nil, or_false] at hd
    rcases hd with h | h | h | h | h | h
    · injection h with h2; subst h2; decide
    · simp at h
    · injection h with h2; subst h2; decide
    · simp at h
    · injection h with h2; subst h2; decide
    · simp at h
